import Mathlib

/-!
Verification of the Windows service manager subsystem
(`pkg/daemon/manager` real variant and `pkg/daemon/fake` test double).

The development shallowly embeds the two Go implementations:

* the test double `testMgr` from `pkg/daemon/fake/manager.go`, acting on an
  in-memory registry of `FakeService` values keyed by name;
* the real `manager` from the unnamed manager source file, acting on an
  abstract model of the OS service control manager's world state.

Effectful Go code is embedded as explicit state passing: each operation takes
the registry (or world) and returns the updated registry together with a
trace of the control actions it issued (`Ev.start`, `Ev.control`,
`Ev.delete`), each annotated with the registry as it was when the action was
issued, and a Go-style result (`ERes`: `ok` or `err msg`).  The recursive
`EnsureServiceState` is embedded with an explicit fuel parameter; `none`
means the fuel ran out, and divergence of the Go original is rendered as
`= none` for every fuel.
-/

namespace WMCO

/-- Service lifecycle states, mirroring the `svc.State` values from
`golang.org/x/sys/windows/svc` used by the source. -/
inductive SState where
  | stopped
  | startPending
  | stopPending
  | running
  | continuePending
  | pausePending
  | paused
deriving DecidableEq, Repr

/-- Result of a Go function returning `error`, or a value and an `error`:
`ok` carries the value, `err` carries the error message. -/
inductive ERes (α : Type) where
  | ok (val : α)
  | err (msg : String)
deriving DecidableEq, Repr

/-- Control actions issued against services: `Service.Start()`,
`Service.Control(svc.Stop)` and the delete request of `DeleteService`. -/
inductive Ev where
  | start (n : String)
  | control (n : String)
  | delete (n : String)
deriving DecidableEq, Repr

/-- Outcome of a stateful operation over a state type `σ`: the final state,
the trace of issued actions (each annotated with the state at the moment the
action was issued), and the Go result. -/
structure GOut (σ : Type) where
  st : σ
  tr : List (σ × Ev)
  res : ERes Unit
deriving DecidableEq, Repr

/-- The fields of `mgr.Config` that the fake manager reads or writes:
`BinaryPathName` and `Dependencies`. -/
structure SvcConfig where
  binaryPathName : String := ""
  dependencies : List String := []
deriving DecidableEq, Repr

/-- `FakeService` as stored in the fake service list: name, configuration and
current status state. -/
structure FakeService where
  name : String
  config : SvcConfig
  state : SState
deriving DecidableEq, Repr

/-- The fake service list `fakeServiceList.svcs`: a name-keyed association
list (names are unique per the registry invariant; lookups take the first
match). -/
abbrev Registry := List (String × FakeService)

/-- Lookup of `fakeServiceList.read`: first entry with the given name. -/
def readSvc : Registry → String → Option FakeService
  | [], _ => none
  | (k, s) :: rest, n => if k = n then some s else readSvc rest n

/-- Overwrite of `fakeServiceList.write`: replace the entry with the given
name, or append a fresh one. -/
def writeSvc : Registry → String → FakeService → Registry
  | [], n, s => [(n, s)]
  | (k, v) :: rest, n, s =>
      if k = n then (n, s) :: rest else (k, v) :: writeSvc rest n s

/-- Drop every entry with the given key (Go's `delete(map, name)`). -/
def removeKey : Registry → String → Registry
  | [], _ => []
  | (k, v) :: rest, n => if k = n then removeKey rest n else (k, v) :: removeKey rest n

/-- Deletion of `fakeServiceList.remove`: error when the entry does not
exist, otherwise drop it. -/
def removeSvc (l : Registry) (n : String) : ERes Registry :=
  match readSvc l n with
  | none => .err "service does not exist"
  | some _ => .ok (removeKey l n)

/-- Names of all registered services (`fakeServiceList.listServiceNames`). -/
def listNames (l : Registry) : List String := l.map Prod.fst

/-- Modelled from the spec: `FakeService.Config` (fake service handle
methods are outside the provided sources).  The handle returns its declared
configuration record and never fails. -/
def FakeService.getConfig (s : FakeService) : ERes SvcConfig := .ok s.config

/-- Modelled from the spec: `FakeService.Query` through the registry.  A
handle is identified by its service name; querying returns the most recently
known state, and a service that disappeared is reported as an error. -/
def queryState (l : Registry) (n : String) : ERes SState :=
  match readSvc l n with
  | some s => .ok s.state
  | none => .err "service does not exist"

/-- Modelled from the spec: the state change performed by the fake handle's
`Start` (to `running`) and `Control(svc.Stop)` (to `stopped`); the test
double's transitions are synchronous. -/
def setState (l : Registry) (n : String) (st : SState) : Registry :=
  l.map (fun p => if p.1 = n then (p.1, { p.2 with state := st }) else p)

/-- The scan of `testMgr.listDependentServices`: walk every registry entry,
skip the target itself, and append the entry's name once for every
occurrence of the target in its declared dependency list. -/
def listDependentServicesGo (target : String) : Registry → ERes (List String)
  | [] => .ok []
  | (name, s) :: rest =>
      if name = target then listDependentServicesGo target rest
      else
        match s.getConfig with
        | .err e => .err e
        | .ok config =>
          match listDependentServicesGo target rest with
          | .err e => .err e
          | .ok acc =>
              .ok (((config.dependencies.filter (fun d => d = target)).map
                (fun _ => name)) ++ acc)

/-- `testMgr.listDependentServices`. -/
def listDependentServices (l : Registry) (target : String) : ERes (List String) :=
  listDependentServicesGo target l

/-- Pure value of the dependent scan (the scan never fails because the fake
handle's `Config` never fails): names of the other entries, one occurrence
per occurrence of the target in their dependency list. -/
def listDeps : Registry → String → List String
  | [], _ => []
  | (name, s) :: rest, target =>
      if name = target then listDeps rest target
      else ((s.config.dependencies.filter (fun d => d = target)).map (fun _ => name)) ++
        listDeps rest target

/-- State of a service by name, as an optional value. -/
def stateOf (l : Registry) (n : String) : Option SState :=
  (readSvc l n).map FakeService.state

/-- The dependent-stopping loop shared by both variants of
`EnsureServiceState`: for each dependent name, open it (an absent dependent
is an error) and run the recursive ensure-stopped call `ens`, aborting on
the first failure with a wrapped error. -/
def stopDepsGo {σ : Type} (canOpen : σ → String → Bool)
    (ens : σ → String → Option (GOut σ)) : σ → List String → Option (GOut σ)
  | l, [] => some ⟨l, [], .ok ()⟩
  | l, d :: ds =>
      if canOpen l d then
        match ens l d with
        | none => none
        | some o =>
          match o.res with
          | .err e =>
              some ⟨o.st, o.tr, .err ("unable to stop dependent service " ++ d ++ ": " ++ e)⟩
          | .ok _ =>
            match stopDepsGo canOpen ens o.st ds with
            | none => none
            | some o2 => some ⟨o2.st, o.tr ++ o2.tr, o2.res⟩
      else some ⟨l, [], .err ("error opening dependent service " ++ d)⟩

/-- `testMgr.EnsureServiceState` with explicit fuel for the recursion on
dependents.  Mirrors the source: query the current state and return success
if it already equals the target; `running` issues `Start` and returns its
result; `stopped` first stops every dependent recursively, then issues
`Control(svc.Stop)`; any other target is an unexpected-state error. -/
def ensureF : Nat → Registry → String → SState → Option (GOut Registry)
  | 0, _, _, _ => none
  | fuel + 1, l, n, target =>
    match queryState l n with
    | .err e => some ⟨l, [], .err ("error querying service state: " ++ e)⟩
    | .ok st =>
      if st = target then some ⟨l, [], .ok ()⟩
      else
        match target with
        | .running => some ⟨setState l n .running, [(l, .start n)], .ok ()⟩
        | .stopped =>
          match listDependentServices l n with
          | .err e => some ⟨l, [], .err e⟩
          | .ok deps =>
            match stopDepsGo (fun l' d => (readSvc l' d).isSome)
                (fun l' d => ensureF fuel l' d .stopped) l deps with
            | none => none
            | some o =>
              match o.res with
              | .err e => some ⟨o.st, o.tr, .err e⟩
              | .ok _ =>
                  some ⟨setState o.st n .stopped, o.tr ++ [(o.st, .control n)], .ok ()⟩
        | _ => some ⟨l, [], .err "unexpected state request"⟩

/-- `testMgr.DeleteService`: absence is success; otherwise ensure the
service is stopped (propagating a failure without deleting) and then remove
it from the list.  The removal is recorded as a `delete` action. -/
def fakeDeleteService (fuel : Nat) (l : Registry) (n : String) : Option (GOut Registry) :=
  match readSvc l n with
  | none => some ⟨l, [], .ok ()⟩
  | some _ =>
    match ensureF fuel l n .stopped with
    | none => none
    | some o =>
      match o.res with
      | .err e => some ⟨o.st, o.tr, .err ("failed to stop service " ++ n ++ ": " ++ e)⟩
      | .ok _ =>
        match removeSvc o.st n with
        | .err e => some ⟨o.st, o.tr, .err e⟩
        | .ok l2 => some ⟨l2, o.tr ++ [(o.st, .delete n)], .ok ()⟩

/-- `testMgr.CreateService`: error when a service of the name already
exists; otherwise store a fresh `FakeService` whose config carries the
executable path and whose initial status state is `stopped`.  The trailing
start arguments are accepted and, as in the source, not stored. -/
def fakeCreateService (l : Registry) (name exepath : String) (config : SvcConfig)
    (_args : List String) : ERes (FakeService × Registry) :=
  match readSvc l name with
  | some _ => .err "service already exists"
  | none =>
    let service : FakeService :=
      { name := name, config := { config with binaryPathName := exepath },
        state := SState.stopped }
    .ok (service, writeSvc l name service)

/-! ## Real variant (`manager` from the unnamed manager source file)

The real manager acts against the OS service control manager.  The OS side
is modelled as a world: a name-keyed association list of entries carrying
the service's current state, its declared dependency list, and a
`responsive` flag describing whether the OS actually performs requested
transitions (an unresponsive service is one whose state never transitions,
which is how the transition-timeout behavior becomes observable). -/

/-- An OS-registered service as seen through the service control manager:
current state, declared dependency names, and whether control requests take
effect. -/
structure OsEntry where
  state : SState
  dependencies : List String
  responsive : Bool
deriving DecidableEq, Repr

/-- The OS service registry. -/
abbrev World := List (String × OsEntry)

/-- Drop every OS entry with the given key (the delete taking effect). -/
def wRemoveKey : World → String → World
  | [], _ => []
  | (k, v) :: rest, n => if k = n then wRemoveKey rest n else (k, v) :: wRemoveKey rest n

/-- Lookup of a service in the OS registry (used to model `OpenService` and
the handle-backed calls). -/
def wRead : World → String → Option OsEntry
  | [], _ => none
  | (k, s) :: rest, n => if k = n then some s else wRead rest n

/-- State of an OS service by name. -/
def wStateOf (w : World) (n : String) : Option SState :=
  (wRead w n).map OsEntry.state

/-- `Service.Query` of the real handle: reported state, or an error when the
service does not exist. -/
def wQuery (w : World) (n : String) : ERes SState :=
  match wRead w n with
  | some s => .ok s.state
  | none => .err "the specified service does not exist"

/-- Set the state of the named OS service. -/
def wSetState (w : World) (n : String) (st : SState) : World :=
  w.map (fun p => if p.1 = n then (p.1, { p.2 with state := st }) else p)

/-- Modelled OS effect of `Service.Start`: a responsive service reaches
`running`; an unresponsive one is left in `startPending` and never
transitions further. -/
def wStart (w : World) (n : String) : World :=
  match wRead w n with
  | none => w
  | some e => wSetState w n (if e.responsive then .running else .startPending)

/-- Modelled OS effect of `Service.Control(svc.Stop)`: a responsive service
reaches `stopped`; an unresponsive one is left in `stopPending` and never
transitions further. -/
def wControlStop (w : World) (n : String) : World :=
  match wRead w n with
  | none => w
  | some e => wSetState w n (if e.responsive then .stopped else .stopPending)

/-- Modelled OS answer of the `EnumDependentServicesW` call used by
`manager.listDependentServices`: the names of the other services whose
declared dependency list contains the target.  The byte-buffer protocol of
the call itself is modelled separately by `enumLoop`. -/
def wListDeps : World → String → List String
  | [], _ => []
  | (k, e) :: rest, target =>
      if k ≠ target ∧ target ∈ e.dependencies then k :: wListDeps rest target
      else wListDeps rest target

/-- Modelled from the spec: `winsvc.WaitForState` polls `Query` in a loop
until the reported state equals the target or the retry budget runs out, at
which point it fails.  The modelled world does not change between polls, so
the bounded poll loop reduces to a single query: success when the state
already equals the target, and a transition-timeout error otherwise. -/
def waitForState (w : World) (n : String) (target : SState) : ERes Unit :=
  match wStateOf w n with
  | some st => if st = target then .ok () else .err "timed out waiting for service state"
  | none => .err "the specified service does not exist"

/-- `manager.EnsureServiceState` with explicit fuel.  Mirrors the source:
query and return success on an already-satisfied target; `running` issues
`Start`; `stopped` first recursively stops every dependent reported by the
OS enumeration and then issues `Control(svc.Stop)`; other targets are an
unexpected-state error; after a `Start` or `Control` the call waits for the
state change via `winsvc.WaitForState` and returns its verdict. -/
def realEnsureF : Nat → World → String → SState → Option (GOut World)
  | 0, _, _, _ => none
  | fuel + 1, w, n, target =>
    match wQuery w n with
    | .err e => some ⟨w, [], .err ("error querying service state: " ++ e)⟩
    | .ok st =>
      if st = target then some ⟨w, [], .ok ()⟩
      else
        match target with
        | .running =>
          match waitForState (wStart w n) n .running with
          | .ok _ => some ⟨wStart w n, [(w, .start n)], .ok ()⟩
          | .err e => some ⟨wStart w n, [(w, .start n)], .err e⟩
        | .stopped =>
          match stopDepsGo (fun w' d => (wRead w' d).isSome)
              (fun w' d => realEnsureF fuel w' d .stopped) w (wListDeps w n) with
          | none => none
          | some o =>
            match o.res with
            | .err e => some ⟨o.st, o.tr, .err e⟩
            | .ok _ =>
              match waitForState (wControlStop o.st n) n .stopped with
              | .ok _ =>
                  some ⟨wControlStop o.st n, o.tr ++ [(o.st, .control n)], .ok ()⟩
              | .err e =>
                  some ⟨wControlStop o.st n, o.tr ++ [(o.st, .control n)], .err e⟩
        | _ => some ⟨w, [], .err "unexpected state request"⟩

/-- `manager.DeleteService`: absence (per `GetServices`) is success;
otherwise open the service, ensure it is stopped (propagating a failure
without deleting), then issue the delete, recorded as a `delete` action.
The OS-side deferral of the final removal is not modelled: the entry is
dropped when the delete is issued. -/
def realDeleteService (fuel : Nat) (w : World) (n : String) : Option (GOut World) :=
  match wRead w n with
  | none => some ⟨w, [], .ok ()⟩
  | some _ =>
    match realEnsureF fuel w n .stopped with
    | none => none
    | some o =>
      match o.res with
      | .err e => some ⟨o.st, o.tr, .err ("failed to stop service " ++ n ++ ": " ++ e)⟩
      | .ok _ =>
          some ⟨wRemoveKey o.st n, o.tr ++ [(o.st, .delete n)], .ok ()⟩

/-! ## The variable-size buffer protocol of `manager.listDependentServices`

The `EnumDependentServicesW` syscall is an external interface; one call is
modelled as an oracle indexed by the attempt number and the supplied buffer
size.  `enumLoop` embeds the retry loop of the source: break on syscall
success; fail on an error other than `ERROR_MORE_DATA`; when
`ERROR_MORE_DATA` is reported, fail if the reported required size does not
exceed the current buffer size, and otherwise retry with a buffer of exactly
the reported required size. -/

/-- Outcome of one `EnumDependentServicesW` call: success with the returned
service count, `ERROR_MORE_DATA` with the required buffer size in bytes, or
some other error. -/
inductive EnumOut where
  | success (count : Nat)
  | moreData (bytesNeeded : Nat)
  | failure (msg : String)
deriving DecidableEq, Repr

/-- The reported `ERROR_MORE_DATA` error value as a message. -/
def moreDataErr : String := "ERROR_MORE_DATA"

/-- The retry loop of `manager.listDependentServices` over an oracle giving
the outcome of the i-th syscall attempt with the given buffer size; fuel
bounds the number of attempts the embedding can unfold, with `none` meaning
the loop was still running. -/
def enumLoop (oracle : Nat → Nat → EnumOut) : Nat → Nat → Nat → Option (ERes Nat)
  | 0, _, _ => none
  | fuel + 1, i, bufLen =>
    match oracle i bufLen with
    | .success c => some (.ok c)
    | .failure e =>
        some (.err ("received unexpected error from enumDependentServicesSyscall: " ++ e))
    | .moreData bytesNeeded =>
        if bytesNeeded ≤ bufLen then some (.err moreDataErr)
        else enumLoop oracle fuel (i + 1) bytesNeeded

/-- Signature of an entry: its key and everything except the status state. -/
def entrySig (p : String × FakeService) : String × String × SvcConfig :=
  (p.1, p.2.name, p.2.config)

/-- Shape equality of registries. -/
def shapeEq (l l' : Registry) : Prop :=
  l.map entrySig = l'.map entrySig

def EnsProps {σ : Type} (stOf : σ → String → Option SState) (sig : σ → σ → Prop)
    (depsOf : σ → String → List String) (ens : σ → String → Option (GOut σ)) : Prop :=
  ∀ l d o, ens l d = some o →
    sig l o.st ∧
    (o.res = .ok () → ∀ m, stOf o.st m = stOf l m ∨ stOf o.st m = some SState.stopped) ∧
    (o.res = .ok () → stOf o.st d = some SState.stopped) ∧
    (∀ li ev, (li, ev) ∈ o.tr → (∃ m, ev = Ev.control m) ∧ sig l li) ∧
    (∀ li m, (li, Ev.control m) ∈ o.tr → ∀ d2 ∈ depsOf li m, stOf li d2 = some SState.stopped)

/-- Signature of an OS entry: everything except the state. -/
def wEntrySig (p : String × OsEntry) : String × List String × Bool :=
  (p.1, p.2.dependencies, p.2.responsive)

/-- Shape equality of OS worlds: same names, dependency declarations and
responsiveness, in the same order; only states may differ. -/
def wShapeEq (w w' : World) : Prop :=
  w.map wEntrySig = w'.map wEntrySig

/-- Names of all OS-registered services (the real `GetServices`). -/
def wListNames (w : World) : List String := w.map Prod.fst

/-- Helper configuration record with only dependency declarations. -/
def cfgOf (deps : List String) : SvcConfig :=
  { binaryPathName := "", dependencies := deps }

/-- A two-service registry whose declared dependency graph has a cycle of
running services: `a` depends on `b` and `b` depends on `a`. -/
def cycReg : Registry :=
  [("a", ⟨"a", cfgOf ["b"], .running⟩), ("b", ⟨"b", cfgOf ["a"], .running⟩)]

/-- The same dependency cycle of running services, seen by the real
variant's OS world. -/
def wCyc : World :=
  [("a", ⟨.running, ["b"], true⟩), ("b", ⟨.running, ["a"], true⟩)]

/-- Registry refuting the unrestricted transitive-ordering claim: `d1`
declares `s` and is already stopped, `d2` declares `d1` and is running, so
`d2` transitively declares `s` but is hidden behind the stopped `d1`. -/
def c1Reg : Registry :=
  [("s", ⟨"s", cfgOf [], .running⟩),
   ("d1", ⟨"d1", cfgOf ["s"], .stopped⟩),
   ("d2", ⟨"d2", cfgOf ["d1"], .running⟩)]

/-- The registry left behind by `EnsureServiceState(s, stopped)` on `c1Reg`. -/
def c1RegAfter : Registry :=
  [("s", ⟨"s", cfgOf [], .stopped⟩),
   ("d1", ⟨"d1", cfgOf ["s"], .stopped⟩),
   ("d2", ⟨"d2", cfgOf ["d1"], .running⟩)]

/-- A three-link dependency chain, all running: `A` declares `B`, `B`
declares `C`. -/
def regChain : Registry :=
  [("A", ⟨"A", cfgOf ["B"], .running⟩),
   ("B", ⟨"B", cfgOf ["C"], .running⟩),
   ("C", ⟨"C", cfgOf [], .running⟩)]

/-- `regChain` after `A` has been stopped. -/
def regChain1 : Registry :=
  [("A", ⟨"A", cfgOf ["B"], .stopped⟩),
   ("B", ⟨"B", cfgOf ["C"], .running⟩),
   ("C", ⟨"C", cfgOf [], .running⟩)]

/-- `regChain` after `A` and `B` have been stopped. -/
def regChain2 : Registry :=
  [("A", ⟨"A", cfgOf ["B"], .stopped⟩),
   ("B", ⟨"B", cfgOf ["C"], .stopped⟩),
   ("C", ⟨"C", cfgOf [], .running⟩)]

/-- `regChain` with all three services stopped. -/
def regChain3 : Registry :=
  [("A", ⟨"A", cfgOf ["B"], .stopped⟩),
   ("B", ⟨"B", cfgOf ["C"], .stopped⟩),
   ("C", ⟨"C", cfgOf [], .stopped⟩)]

/-- The full outcome of `EnsureServiceState(C, stopped)` on `regChain`:
dependents are stopped depth-first before `C` receives its stop control. -/
def chainOut : GOut Registry :=
  ⟨regChain3,
   [(regChain, .control "A"), (regChain1, .control "B"), (regChain2, .control "C")],
   .ok ()⟩

/-- A single paused service (fake registry). -/
def pausedReg : Registry := [("p", ⟨"p", cfgOf [], .paused⟩)]

/-- A single paused service (OS world). -/
def wPausedReg : World := [("p", ⟨.paused, [], true⟩)]

/-- An unresponsive running service with no dependents. -/
def wTimeout : World := [("u", ⟨.running, [], false⟩)]

/-- Registry in which `X` declares `Z` twice. -/
def dupReg : Registry :=
  [("X", ⟨"X", cfgOf ["Z", "Z"], .running⟩), ("Z", ⟨"Z", cfgOf [], .running⟩)]

/-- Registry in which `Z` declares itself. -/
def selfZReg : Registry := [("Z", ⟨"Z", cfgOf ["Z"], .running⟩)]

/-- Registry where `X` and `Y` declare `Z` and `W` does not. -/
def xyzReg : Registry :=
  [("X", ⟨"X", cfgOf ["Z"], .running⟩),
   ("Y", ⟨"Y", cfgOf ["Z"], .running⟩),
   ("W", ⟨"W", cfgOf [], .running⟩),
   ("Z", ⟨"Z", cfgOf [], .running⟩)]

/-- A single running service named `x` (fake registry). -/
def regX : Registry := [("x", ⟨"x", cfgOf [], .running⟩)]

/-- `regX` with `x` stopped. -/
def regXStopped : Registry := [("x", ⟨"x", cfgOf [], .stopped⟩)]

/-- Outcome of ensuring `x` stopped on `regX`. -/
def delOut : GOut Registry := ⟨regXStopped, [(regX, .control "x")], .ok ()⟩

/-- An oracle that always reports buffer-too-small with required size 0. -/
def badOracle : Nat → Nat → EnumOut := fun _ _ => .moreData 0

/-- An oracle whose first call reports 8 bytes needed and whose second call
succeeds. -/
def growOracle : Nat → Nat → EnumOut
  | 0, len => .moreData (len + 8)
  | _, _ => .success 2

/-- A rank function for the three-link chain. -/
def chainRank : String → Nat := fun n => if n = "C" then 2 else if n = "B" then 1 else 0

/-- A service declaring itself as its own dependency. -/
def selfDepReg : Registry := [("a", ⟨"a", cfgOf ["a"], .running⟩)]

/-! ## Basic registry lemmas (test double) -/

theorem listDependentServices_eq_ok (l : Registry) (t : String) :
    listDependentServices l t = .ok (listDeps l t) := by
  induction l with
  | nil => rfl
  | cons p rest ih =>
    obtain ⟨name, s⟩ := p
    simp only [listDependentServices, listDependentServicesGo, listDeps] at *
    by_cases h : name = t
    · simp [h, ih]
    · simp [h, FakeService.getConfig, ih]

theorem setState_cons (k : String) (s : FakeService) (rest : Registry)
    (n : String) (st : SState) :
    setState ((k, s) :: rest) n st =
      (if k = n then (k, { s with state := st }) else (k, s)) :: setState rest n st := by
  by_cases h : k = n <;> simp [setState, h]

theorem readSvc_setState (l : Registry) (n : String) (st : SState) (m : String) :
    readSvc (setState l n st) m =
      if m = n then (readSvc l m).map (fun s => { s with state := st })
      else readSvc l m := by
  induction l with
  | nil => by_cases h : m = n <;> simp [setState, readSvc, h]
  | cons p rest ih =>
    obtain ⟨k, s⟩ := p
    rw [setState_cons]
    by_cases hk : k = n
    · rw [if_pos hk]
      subst hk
      by_cases hkm : k = m
      · subst hkm
        simp [readSvc]
      · have hmn : ¬ m = k := fun h => hkm h.symm
        simp [readSvc, hkm, hmn, ih]
    · rw [if_neg hk]
      by_cases hkm : k = m
      · subst hkm
        have hmn : ¬ k = n := hk
        simp [readSvc, hmn]
      · simp [readSvc, hkm, ih]

theorem stateOf_setState (l : Registry) (n : String) (st : SState) (m : String) :
    stateOf (setState l n st) m =
      if m = n then (stateOf l m).map (fun _ => st) else stateOf l m := by
  simp only [stateOf, readSvc_setState]
  by_cases h : m = n
  · subst h
    simp only [if_pos rfl]
    cases readSvc l m <;> simp
  · simp [h]

theorem readSvc_mem {l : Registry} {n : String} {s : FakeService}
    (h : readSvc l n = some s) : (n, s) ∈ l := by
  induction l with
  | nil => simp [readSvc] at h
  | cons p rest ih =>
    obtain ⟨k, v⟩ := p
    simp only [readSvc] at h
    by_cases hk : k = n
    · subst hk
      rw [if_pos rfl] at h
      injection h with h
      subst h
      exact List.mem_cons_self _ _
    · rw [if_neg hk] at h
      exact List.mem_cons_of_mem _ (ih h)

theorem readSvc_isSome_mem_listNames {l : Registry} {n : String}
    (h : (readSvc l n).isSome) : n ∈ listNames l := by
  match hs : readSvc l n with
  | none => rw [hs] at h; simp at h
  | some s =>
    have := readSvc_mem hs
    simp only [listNames, List.mem_map]
    exact ⟨(n, s), this, rfl⟩

/-! ## Shape equality

Two registries are shape-equal when they list the same names with the same
stored service names and configurations, in the same order; only the status
states may differ.  All mutations performed by the reconciliation engine are
`setState` updates, which preserve shape. -/

theorem shapeEq_refl (l : Registry) : shapeEq l l := rfl

theorem shapeEq_trans {a b c : Registry} (h₁ : shapeEq a b) (h₂ : shapeEq b c) :
    shapeEq a c := h₁.trans h₂

theorem shapeEq_setState (l : Registry) (n : String) (st : SState) :
    shapeEq l (setState l n st) := by
  unfold shapeEq setState
  rw [List.map_map]
  apply List.map_congr_left
  intro p _
  by_cases h : p.1 = n <;> simp [entrySig, h]

theorem shapeEq_readSvc {l l' : Registry} (h : shapeEq l l') (m : String) :
    Option.map (fun s => (s.name, s.config)) (readSvc l' m) =
      Option.map (fun s => (s.name, s.config)) (readSvc l m) := by
  induction l generalizing l' with
  | nil =>
    cases l' with
    | nil => rfl
    | cons q rest' => simp [shapeEq] at h
  | cons p rest ih =>
    cases l' with
    | nil => simp [shapeEq] at h
    | cons q rest' =>
      obtain ⟨k, s⟩ := p
      obtain ⟨k', s'⟩ := q
      simp only [shapeEq, List.map_cons, List.cons.injEq, entrySig, Prod.mk.injEq] at h
      obtain ⟨⟨hk, hn, hc⟩, htail⟩ := h
      simp only [readSvc]
      subst hk
      by_cases hkm : k = m
      · simp [hkm, hn, hc]
      · simp only [hkm, if_false]
        exact ih htail

theorem shapeEq_readSvc_isSome {l l' : Registry} (h : shapeEq l l') (m : String) :
    (readSvc l' m).isSome = (readSvc l m).isSome := by
  have := shapeEq_readSvc h m
  cases h1 : readSvc l m <;> cases h2 : readSvc l' m <;>
    rw [h1, h2] at this <;> simp_all

theorem shapeEq_listDeps {l l' : Registry} (h : shapeEq l l') (t : String) :
    listDeps l' t = listDeps l t := by
  induction l generalizing l' with
  | nil =>
    cases l' with
    | nil => rfl
    | cons q rest' => simp [shapeEq] at h
  | cons p rest ih =>
    cases l' with
    | nil => simp [shapeEq] at h
    | cons q rest' =>
      obtain ⟨k, s⟩ := p
      obtain ⟨k', s'⟩ := q
      simp only [shapeEq, List.map_cons, List.cons.injEq, entrySig, Prod.mk.injEq] at h
      obtain ⟨⟨hk, hn, hc⟩, htail⟩ := h
      subst hk
      simp only [listDeps, hc, ih htail]

theorem shapeEq_listNames {l l' : Registry} (h : shapeEq l l') :
    listNames l' = listNames l := by
  have h1 : (l.map entrySig).map (fun q => q.1) = (l'.map entrySig).map (fun q => q.1) := by
    rw [h]
  simpa [listNames, List.map_map, entrySig] using h1.symm

/-! ## Unfolding equations for the fake engine -/

theorem ensureF_query_err {l : Registry} {n : String} (t : SState)
    (h : readSvc l n = none) (fuel : Nat) :
    ensureF (fuel + 1) l n t =
      some ⟨l, [], .err ("error querying service state: " ++ "service does not exist")⟩ := by
  simp [ensureF, queryState, h]

theorem ensureF_already {l : Registry} {n : String} {s : FakeService} {t : SState}
    (hs : readSvc l n = some s) (hst : s.state = t) (fuel : Nat) :
    ensureF (fuel + 1) l n t = some ⟨l, [], .ok ()⟩ := by
  simp [ensureF, queryState, hs, hst]

theorem ensureF_start {l : Registry} {n : String} {s : FakeService}
    (hs : readSvc l n = some s) (hst : s.state ≠ .running) (fuel : Nat) :
    ensureF (fuel + 1) l n .running =
      some ⟨setState l n .running, [(l, .start n)], .ok ()⟩ := by
  simp [ensureF, queryState, hs, hst]

theorem ensureF_stop_unfold {l : Registry} {n : String} {s : FakeService}
    (hs : readSvc l n = some s) (hst : s.state ≠ .stopped) (fuel : Nat) :
    ensureF (fuel + 1) l n .stopped =
      match stopDepsGo (fun l' d => (readSvc l' d).isSome)
          (fun l' d => ensureF fuel l' d .stopped) l (listDeps l n) with
      | none => none
      | some o =>
        match o.res with
        | .err e => some ⟨o.st, o.tr, .err e⟩
        | .ok _ => some ⟨setState o.st n .stopped, o.tr ++ [(o.st, .control n)], .ok ()⟩ := by
  simp [ensureF, queryState, hs, hst, listDependentServices_eq_ok]

theorem ensureF_bad_target {l : Registry} {n : String} {s : FakeService} {t : SState}
    (hs : readSvc l n = some s) (hst : s.state ≠ t)
    (ht1 : t ≠ .running) (ht2 : t ≠ .stopped) (fuel : Nat) :
    ensureF (fuel + 1) l n t = some ⟨l, [], .err "unexpected state request"⟩ := by
  cases t <;> simp_all [ensureF, queryState, hs]

/-! ## The loop contract

`EnsProps` is the contract of one recursive ensure-stopped call, stated
generically over the state type: shape preservation, stop-monotonicity on
success, the target being stopped on success, issued actions being stop
controls annotated with shape-related states, and every issued stop control
finding the direct dependents of its target already stopped. -/

theorem stopDepsGo_spec {σ : Type} (stOf : σ → String → Option SState)
    (sig : σ → σ → Prop) (depsOf : σ → String → List String)
    (canOpen : σ → String → Bool) (ens : σ → String → Option (GOut σ))
    (hrefl : ∀ a, sig a a)
    (htrans : ∀ a b c, sig a b → sig b c → sig a c)
    (hens : EnsProps stOf sig depsOf ens) :
    ∀ ds l o, stopDepsGo canOpen ens l ds = some o →
      sig l o.st ∧
      (o.res = .ok () → ∀ m, stOf o.st m = stOf l m ∨ stOf o.st m = some SState.stopped) ∧
      (o.res = .ok () → ∀ d ∈ ds, stOf o.st d = some SState.stopped) ∧
      (∀ li ev, (li, ev) ∈ o.tr → (∃ m, ev = Ev.control m) ∧ sig l li) ∧
      (∀ li m, (li, Ev.control m) ∈ o.tr → ∀ d2 ∈ depsOf li m, stOf li d2 = some SState.stopped) := by
  intro ds
  induction ds with
  | nil =>
    intro l o h
    simp only [stopDepsGo] at h
    injection h with h
    subst h
    refine ⟨hrefl l, ?_, ?_, ?_, ?_⟩ <;> simp
  | cons d ds ih =>
    intro l o h
    simp only [stopDepsGo] at h
    by_cases hco : canOpen l d
    · rw [if_pos hco] at h
      cases he : ens l d with
      | none => rw [he] at h; simp at h
      | some o1 =>
        rw [he] at h
        dsimp only at h
        obtain ⟨h1, h2, h3, h4, h5⟩ := hens l d o1 he
        cases hr : o1.res with
        | err e =>
          rw [hr] at h
          dsimp only at h
          injection h with h
          subst h
          refine ⟨h1, ?_, ?_, h4, h5⟩
          · intro hok; exact absurd hok (by simp)
          · intro hok; exact absurd hok (by simp)
        | ok u =>
          cases u
          rw [hr] at h
          dsimp only at h
          cases hl2 : stopDepsGo canOpen ens o1.st ds with
          | none => rw [hl2] at h; simp at h
          | some o2 =>
            rw [hl2] at h
            dsimp only at h
            injection h with h
            subst h
            obtain ⟨g1, g2, g3, g4, g5⟩ := ih o1.st o2 hl2
            refine ⟨htrans _ _ _ h1 g1, ?_, ?_, ?_, ?_⟩
            · intro hok m
              rcases g2 hok m with hg | hg
              · rcases h2 hr m with hh | hh
                · exact Or.inl (hg.trans hh)
                · exact Or.inr (hg.trans hh)
              · exact Or.inr hg
            · intro hok d' hd'
              rcases List.mem_cons.1 hd' with rfl | hm
              · rcases g2 hok d' with hg | hg
                · exact hg.trans (h3 hr)
                · exact hg
              · exact g3 hok d' hm
            · intro li ev hmem
              rcases List.mem_append.1 hmem with hm | hm
              · exact h4 li ev hm
              · obtain ⟨hc, hsig⟩ := g4 li ev hm
                exact ⟨hc, htrans _ _ _ h1 hsig⟩
            · intro li m hmem d2 hd2
              rcases List.mem_append.1 hmem with hm | hm
              · exact h5 li m hm d2 hd2
              · exact g5 li m hm d2 hd2
    · rw [if_neg hco] at h
      injection h with h
      subst h
      refine ⟨hrefl l, ?_, ?_, ?_, ?_⟩
      · intro hok; exact absurd hok (by simp)
      · intro hok; exact absurd hok (by simp)
      · intro li ev hmem; simp at hmem
      · intro li m hmem; simp at hmem

/-! ## Master lemma for the fake engine's stop recursion -/

theorem ensureF_stop_props :
    ∀ fuel, EnsProps stateOf shapeEq listDeps (fun l d => ensureF fuel l d .stopped) := by
  intro fuel
  induction fuel with
  | zero =>
    intro l d o h
    simp [ensureF] at h
  | succ fuel ih =>
    intro l d o h
    dsimp only at h
    cases hs : readSvc l d with
    | none =>
      rw [ensureF_query_err _ hs fuel] at h
      injection h with h
      subst h
      refine ⟨shapeEq_refl l, ?_, ?_, ?_, ?_⟩
      · intro hok; exact absurd hok (by simp)
      · intro hok; exact absurd hok (by simp)
      · intro li ev hmem; simp at hmem
      · intro li m hmem; simp at hmem
    | some s =>
      by_cases hst : s.state = .stopped
      · rw [ensureF_already hs hst fuel] at h
        injection h with h
        subst h
        refine ⟨shapeEq_refl l, ?_, ?_, ?_, ?_⟩
        · intro _ m; exact Or.inl rfl
        · intro _; simp [stateOf, hs, hst]
        · intro li ev hmem; simp at hmem
        · intro li m hmem; simp at hmem
      · rw [ensureF_stop_unfold hs hst fuel] at h
        cases hl : stopDepsGo (fun l' d => (readSvc l' d).isSome)
            (fun l' d => ensureF fuel l' d .stopped) l (listDeps l d) with
        | none => rw [hl] at h; simp at h
        | some o1 =>
          rw [hl] at h
          dsimp only at h
          obtain ⟨s1, s2, s3, s4, s5⟩ :=
            stopDepsGo_spec stateOf shapeEq listDeps _ _ shapeEq_refl
              (fun a b c => shapeEq_trans) ih (listDeps l d) l o1 hl
          cases hr : o1.res with
          | err e =>
            rw [hr] at h
            dsimp only at h
            injection h with h
            subst h
            refine ⟨s1, ?_, ?_, s4, s5⟩
            · intro hok; exact absurd hok (by simp)
            · intro hok; exact absurd hok (by simp)
          | ok u =>
            cases u
            rw [hr] at h
            dsimp only at h
            injection h with h
            subst h
            refine ⟨shapeEq_trans s1 (shapeEq_setState o1.st d .stopped), ?_, ?_, ?_, ?_⟩
            · intro _ m
              dsimp only
              rw [stateOf_setState]
              by_cases hm : m = d
              · rw [if_pos hm]
                rcases s2 hr m with hg | hg
                · cases hlm : stateOf l m with
                  | none => left; rw [hg, hlm]; rfl
                  | some st' => right; rw [hg, hlm]; rfl
                · right; rw [hg]; rfl
              · rw [if_neg hm]; exact s2 hr m
            · intro _
              dsimp only
              rw [stateOf_setState]
              simp only [if_pos rfl]
              have hsome : (readSvc o1.st d).isSome := by
                rw [shapeEq_readSvc_isSome s1]
                simp [hs]
              cases ho : readSvc o1.st d with
              | none => rw [ho] at hsome; simp at hsome
              | some s' => simp [stateOf, ho]
            · intro li ev hmem
              dsimp only at hmem
              rcases List.mem_append.1 hmem with hm | hm
              · exact s4 li ev hm
              · simp only [List.mem_singleton, Prod.mk.injEq] at hm
                obtain ⟨h1', h2'⟩ := hm
                subst h1'; subst h2'
                exact ⟨⟨d, rfl⟩, s1⟩
            · intro li m hmem d2 hd2
              dsimp only at hmem
              rcases List.mem_append.1 hmem with hm | hm
              · exact s5 li m hm d2 hd2
              · simp only [List.mem_singleton, Prod.mk.injEq, Ev.control.injEq] at hm
                obtain ⟨h1', h2'⟩ := hm
                subst h1'; subst h2'
                rw [shapeEq_listDeps s1] at hd2
                exact s3 hr d2 hd2

/-- On success, `EnsureServiceState` leaves the service in the requested
state (for any target). -/
theorem ensureF_ok_state {fuel : Nat} {l : Registry} {n : String} {t : SState}
    {o : GOut Registry} (h : ensureF fuel l n t = some o) (hok : o.res = .ok ()) :
    stateOf o.st n = some t := by
  cases fuel with
  | zero => simp [ensureF] at h
  | succ fuel =>
    cases hs : readSvc l n with
    | none =>
      rw [ensureF_query_err t hs fuel] at h
      injection h with h; subst h; simp at hok
    | some s =>
      by_cases hst : s.state = t
      · rw [ensureF_already hs hst fuel] at h
        injection h with h; subst h
        simp [stateOf, hs, hst]
      · by_cases ht1 : t = .running
        · subst ht1
          rw [ensureF_start hs hst fuel] at h
          injection h with h; subst h
          dsimp only
          rw [stateOf_setState, if_pos rfl]
          rw [show stateOf l n = some s.state from by simp [stateOf, hs]]
          rfl
        · by_cases ht2 : t = .stopped
          · subst ht2
            exact (ensureF_stop_props (fuel + 1) l n o h).2.2.1 hok
          · rw [ensureF_bad_target hs hst ht1 ht2 fuel] at h
            injection h with h; subst h; simp at hok

/-- On a successful ensure-stopped call, either the service was already
stopped and nothing happened, or the very last issued action is the stop
control on the service itself. -/
theorem ensureF_stop_last {fuel : Nat} {l : Registry} {n : String} {o : GOut Registry}
    (h : ensureF fuel l n .stopped = some o) (hok : o.res = .ok ()) :
    (stateOf l n = some .stopped ∧ o.st = l ∧ o.tr = []) ∨
      ∃ tr' l2, o.tr = tr' ++ [(l2, Ev.control n)] := by
  cases fuel with
  | zero => simp [ensureF] at h
  | succ fuel =>
    cases hs : readSvc l n with
    | none =>
      rw [ensureF_query_err _ hs fuel] at h
      injection h with h; subst h; simp at hok
    | some s =>
      by_cases hst : s.state = .stopped
      · rw [ensureF_already hs hst fuel] at h
        injection h with h; subst h
        exact Or.inl ⟨by simp [stateOf, hs, hst], rfl, rfl⟩
      · rw [ensureF_stop_unfold hs hst fuel] at h
        cases hl : stopDepsGo (fun l' d => (readSvc l' d).isSome)
            (fun l' d => ensureF fuel l' d .stopped) l (listDeps l n) with
        | none => rw [hl] at h; simp at h
        | some o1 =>
          rw [hl] at h
          dsimp only at h
          cases hr : o1.res with
          | err e =>
            rw [hr] at h; dsimp only at h
            injection h with h; subst h; simp at hok
          | ok u =>
            cases u
            rw [hr] at h; dsimp only at h
            injection h with h; subst h
            exact Or.inr ⟨o1.tr, o1.st, rfl⟩

/-! ## Basic world lemmas (real variant) -/

theorem wShapeEq_refl (w : World) : wShapeEq w w := rfl

theorem wShapeEq_trans {a b c : World} (h₁ : wShapeEq a b) (h₂ : wShapeEq b c) :
    wShapeEq a c := h₁.trans h₂

theorem wSetState_cons (k : String) (e : OsEntry) (rest : World)
    (n : String) (st : SState) :
    wSetState ((k, e) :: rest) n st =
      (if k = n then (k, { e with state := st }) else (k, e)) :: wSetState rest n st := by
  by_cases h : k = n <;> simp [wSetState, h]

theorem wRead_wSetState (w : World) (n : String) (st : SState) (m : String) :
    wRead (wSetState w n st) m =
      if m = n then (wRead w m).map (fun e => { e with state := st })
      else wRead w m := by
  induction w with
  | nil => by_cases h : m = n <;> simp [wSetState, wRead, h]
  | cons p rest ih =>
    obtain ⟨k, e⟩ := p
    rw [wSetState_cons]
    by_cases hk : k = n
    · rw [if_pos hk]
      subst hk
      by_cases hkm : k = m
      · subst hkm
        simp [wRead]
      · have hmn : ¬ m = k := fun h => hkm h.symm
        simp [wRead, hkm, hmn, ih]
    · rw [if_neg hk]
      by_cases hkm : k = m
      · subst hkm
        have hmn : ¬ k = n := hk
        simp [wRead, hmn]
      · simp [wRead, hkm, ih]

theorem wStateOf_wSetState (w : World) (n : String) (st : SState) (m : String) :
    wStateOf (wSetState w n st) m =
      if m = n then (wStateOf w m).map (fun _ => st) else wStateOf w m := by
  simp only [wStateOf, wRead_wSetState]
  by_cases h : m = n
  · subst h
    simp only [if_pos rfl]
    cases wRead w m <;> simp
  · simp [h]

theorem wShapeEq_wSetState (w : World) (n : String) (st : SState) :
    wShapeEq w (wSetState w n st) := by
  unfold wShapeEq wSetState
  rw [List.map_map]
  apply List.map_congr_left
  intro p _
  by_cases h : p.1 = n <;> simp [wEntrySig, h]

theorem wShapeEq_wControlStop (w : World) (n : String) :
    wShapeEq w (wControlStop w n) := by
  unfold wControlStop
  cases wRead w n with
  | none => exact wShapeEq_refl w
  | some e => exact wShapeEq_wSetState w n _

theorem wShapeEq_wStart (w : World) (n : String) :
    wShapeEq w (wStart w n) := by
  unfold wStart
  cases wRead w n with
  | none => exact wShapeEq_refl w
  | some e => exact wShapeEq_wSetState w n _

theorem wStateOf_wControlStop_ne (w : World) (n m : String) (h : m ≠ n) :
    wStateOf (wControlStop w n) m = wStateOf w m := by
  unfold wControlStop
  cases wRead w n with
  | none => rfl
  | some e => rw [wStateOf_wSetState, if_neg h]

theorem wShapeEq_wRead {w w' : World} (h : wShapeEq w w') (m : String) :
    Option.map (fun e => (e.dependencies, e.responsive)) (wRead w' m) =
      Option.map (fun e => (e.dependencies, e.responsive)) (wRead w m) := by
  induction w generalizing w' with
  | nil =>
    cases w' with
    | nil => rfl
    | cons q rest' => simp [wShapeEq] at h
  | cons p rest ih =>
    cases w' with
    | nil => simp [wShapeEq] at h
    | cons q rest' =>
      obtain ⟨k, e⟩ := p
      obtain ⟨k', e'⟩ := q
      simp only [wShapeEq, List.map_cons, List.cons.injEq, wEntrySig, Prod.mk.injEq] at h
      obtain ⟨⟨hk, hd, hr⟩, htail⟩ := h
      simp only [wRead]
      subst hk
      by_cases hkm : k = m
      · simp [hkm, hd, hr]
      · simp only [hkm, if_false]
        exact ih htail

theorem wShapeEq_wRead_isSome {w w' : World} (h : wShapeEq w w') (m : String) :
    (wRead w' m).isSome = (wRead w m).isSome := by
  have := wShapeEq_wRead h m
  cases h1 : wRead w m <;> cases h2 : wRead w' m <;>
    rw [h1, h2] at this <;> simp_all

theorem wShapeEq_wListDeps {w w' : World} (h : wShapeEq w w') (t : String) :
    wListDeps w' t = wListDeps w t := by
  induction w generalizing w' with
  | nil =>
    cases w' with
    | nil => rfl
    | cons q rest' => simp [wShapeEq] at h
  | cons p rest ih =>
    cases w' with
    | nil => simp [wShapeEq] at h
    | cons q rest' =>
      obtain ⟨k, e⟩ := p
      obtain ⟨k', e'⟩ := q
      simp only [wShapeEq, List.map_cons, List.cons.injEq, wEntrySig, Prod.mk.injEq] at h
      obtain ⟨⟨hk, hd, hr⟩, htail⟩ := h
      subst hk
      simp only [wListDeps, hd, ih htail]

theorem waitForState_ok {w : World} {n : String} {t : SState}
    (h : waitForState w n t = .ok ()) : wStateOf w n = some t := by
  unfold waitForState at h
  cases hw : wStateOf w n with
  | none => rw [hw] at h; simp at h
  | some st =>
    rw [hw] at h
    dsimp only at h
    by_cases hst : st = t
    · rw [hst]
    · rw [if_neg hst] at h; simp at h

theorem waitForState_of_state {w : World} {n : String} {t : SState}
    (h : wStateOf w n = some t) : waitForState w n t = .ok () := by
  simp [waitForState, h]

/-! ## Unfolding equations for the real engine -/

theorem realEnsureF_query_err {w : World} {n : String} (t : SState)
    (h : wRead w n = none) (fuel : Nat) :
    realEnsureF (fuel + 1) w n t =
      some ⟨w, [],
        .err ("error querying service state: " ++ "the specified service does not exist")⟩ := by
  simp [realEnsureF, wQuery, h]

theorem realEnsureF_already {w : World} {n : String} {e : OsEntry} {t : SState}
    (hs : wRead w n = some e) (hst : e.state = t) (fuel : Nat) :
    realEnsureF (fuel + 1) w n t = some ⟨w, [], .ok ()⟩ := by
  simp [realEnsureF, wQuery, hs, hst]

theorem realEnsureF_start_unfold {w : World} {n : String} {e : OsEntry}
    (hs : wRead w n = some e) (hst : e.state ≠ .running) (fuel : Nat) :
    realEnsureF (fuel + 1) w n .running =
      match waitForState (wStart w n) n .running with
      | .ok _ => some ⟨wStart w n, [(w, .start n)], .ok ()⟩
      | .err e => some ⟨wStart w n, [(w, .start n)], .err e⟩ := by
  simp [realEnsureF, wQuery, hs, hst]

theorem realEnsureF_stop_unfold {w : World} {n : String} {e : OsEntry}
    (hs : wRead w n = some e) (hst : e.state ≠ .stopped) (fuel : Nat) :
    realEnsureF (fuel + 1) w n .stopped =
      match stopDepsGo (fun w' d => (wRead w' d).isSome)
          (fun w' d => realEnsureF fuel w' d .stopped) w (wListDeps w n) with
      | none => none
      | some o =>
        match o.res with
        | .err e => some ⟨o.st, o.tr, .err e⟩
        | .ok _ =>
          match waitForState (wControlStop o.st n) n .stopped with
          | .ok _ => some ⟨wControlStop o.st n, o.tr ++ [(o.st, .control n)], .ok ()⟩
          | .err e => some ⟨wControlStop o.st n, o.tr ++ [(o.st, .control n)], .err e⟩ := by
  simp [realEnsureF, wQuery, hs, hst]

theorem realEnsureF_bad_target {w : World} {n : String} {e : OsEntry} {t : SState}
    (hs : wRead w n = some e) (hst : e.state ≠ t)
    (ht1 : t ≠ .running) (ht2 : t ≠ .stopped) (fuel : Nat) :
    realEnsureF (fuel + 1) w n t = some ⟨w, [], .err "unexpected state request"⟩ := by
  cases t <;> simp_all [realEnsureF, wQuery, hs]

/-! ## Master lemma for the real engine's stop recursion -/

theorem realEnsureF_stop_props :
    ∀ fuel, EnsProps wStateOf wShapeEq wListDeps (fun w d => realEnsureF fuel w d .stopped) := by
  intro fuel
  induction fuel with
  | zero =>
    intro w d o h
    simp [realEnsureF] at h
  | succ fuel ih =>
    intro w d o h
    dsimp only at h
    cases hs : wRead w d with
    | none =>
      rw [realEnsureF_query_err _ hs fuel] at h
      injection h with h
      subst h
      refine ⟨wShapeEq_refl w, ?_, ?_, ?_, ?_⟩
      · intro hok; exact absurd hok (by simp)
      · intro hok; exact absurd hok (by simp)
      · intro li ev hmem; simp at hmem
      · intro li m hmem; simp at hmem
    | some e =>
      by_cases hst : e.state = .stopped
      · rw [realEnsureF_already hs hst fuel] at h
        injection h with h
        subst h
        refine ⟨wShapeEq_refl w, ?_, ?_, ?_, ?_⟩
        · intro _ m; exact Or.inl rfl
        · intro _; simp [wStateOf, hs, hst]
        · intro li ev hmem; simp at hmem
        · intro li m hmem; simp at hmem
      · rw [realEnsureF_stop_unfold hs hst fuel] at h
        cases hl : stopDepsGo (fun w' d => (wRead w' d).isSome)
            (fun w' d => realEnsureF fuel w' d .stopped) w (wListDeps w d) with
        | none => rw [hl] at h; simp at h
        | some o1 =>
          rw [hl] at h
          dsimp only at h
          obtain ⟨s1, s2, s3, s4, s5⟩ :=
            stopDepsGo_spec wStateOf wShapeEq wListDeps _ _ wShapeEq_refl
              (fun a b c => wShapeEq_trans) ih (wListDeps w d) w o1 hl
          cases hr : o1.res with
          | err e' =>
            rw [hr] at h
            dsimp only at h
            injection h with h
            subst h
            refine ⟨s1, ?_, ?_, s4, s5⟩
            · intro hok; exact absurd hok (by simp)
            · intro hok; exact absurd hok (by simp)
          | ok u =>
            cases u
            rw [hr] at h
            dsimp only at h
            cases hw : waitForState (wControlStop o1.st d) d .stopped with
            | ok u =>
              cases u
              rw [hw] at h
              dsimp only at h
              injection h with h
              subst h
              refine ⟨wShapeEq_trans s1 (wShapeEq_wControlStop o1.st d), ?_, ?_, ?_, ?_⟩
              · intro _ m
                dsimp only
                by_cases hm : m = d
                · subst hm
                  exact Or.inr (waitForState_ok hw)
                · rw [wStateOf_wControlStop_ne _ _ _ hm]
                  exact s2 hr m
              · intro _
                exact waitForState_ok hw
              · intro li ev hmem
                dsimp only at hmem
                rcases List.mem_append.1 hmem with hm | hm
                · exact s4 li ev hm
                · simp only [List.mem_singleton, Prod.mk.injEq] at hm
                  obtain ⟨h1', h2'⟩ := hm
                  subst h1'; subst h2'
                  exact ⟨⟨d, rfl⟩, s1⟩
              · intro li m hmem d2 hd2
                dsimp only at hmem
                rcases List.mem_append.1 hmem with hm | hm
                · exact s5 li m hm d2 hd2
                · simp only [List.mem_singleton, Prod.mk.injEq, Ev.control.injEq] at hm
                  obtain ⟨h1', h2'⟩ := hm
                  subst h1'; subst h2'
                  rw [wShapeEq_wListDeps s1] at hd2
                  exact s3 hr d2 hd2
            | err e' =>
              rw [hw] at h
              dsimp only at h
              injection h with h
              subst h
              refine ⟨wShapeEq_trans s1 (wShapeEq_wControlStop o1.st d), ?_, ?_, ?_, ?_⟩
              · intro hok; exact absurd hok (by simp)
              · intro hok; exact absurd hok (by simp)
              · intro li ev hmem
                dsimp only at hmem
                rcases List.mem_append.1 hmem with hm | hm
                · exact s4 li ev hm
                · simp only [List.mem_singleton, Prod.mk.injEq] at hm
                  obtain ⟨h1', h2'⟩ := hm
                  subst h1'; subst h2'
                  exact ⟨⟨d, rfl⟩, s1⟩
              · intro li m hmem d2 hd2
                dsimp only at hmem
                rcases List.mem_append.1 hmem with hm | hm
                · exact s5 li m hm d2 hd2
                · simp only [List.mem_singleton, Prod.mk.injEq, Ev.control.injEq] at hm
                  obtain ⟨h1', h2'⟩ := hm
                  subst h1'; subst h2'
                  rw [wShapeEq_wListDeps s1] at hd2
                  exact s3 hr d2 hd2

/-- On success, the real `EnsureServiceState` returns only after `Query`
reports the requested state (for any target). -/
theorem realEnsureF_ok_state {fuel : Nat} {w : World} {n : String} {t : SState}
    {o : GOut World} (h : realEnsureF fuel w n t = some o) (hok : o.res = .ok ()) :
    wStateOf o.st n = some t := by
  cases fuel with
  | zero => simp [realEnsureF] at h
  | succ fuel =>
    cases hs : wRead w n with
    | none =>
      rw [realEnsureF_query_err t hs fuel] at h
      injection h with h; subst h; simp at hok
    | some e =>
      by_cases hst : e.state = t
      · rw [realEnsureF_already hs hst fuel] at h
        injection h with h; subst h
        simp [wStateOf, hs, hst]
      · by_cases ht1 : t = .running
        · subst ht1
          rw [realEnsureF_start_unfold hs hst fuel] at h
          cases hw : waitForState (wStart w n) n .running with
          | ok u =>
            cases u
            rw [hw] at h; dsimp only at h
            injection h with h; subst h
            exact waitForState_ok hw
          | err e' =>
            rw [hw] at h; dsimp only at h
            injection h with h; subst h; simp at hok
        · by_cases ht2 : t = .stopped
          · subst ht2
            exact (realEnsureF_stop_props (fuel + 1) w n o h).2.2.1 hok
          · rw [realEnsureF_bad_target hs hst ht1 ht2 fuel] at h
            injection h with h; subst h; simp at hok

/-- On a successful real ensure-stopped call, either the service was already
stopped and nothing happened, or the last issued action is the stop control
on the service itself. -/
theorem realEnsureF_stop_last {fuel : Nat} {w : World} {n : String} {o : GOut World}
    (h : realEnsureF fuel w n .stopped = some o) (hok : o.res = .ok ()) :
    (wStateOf w n = some .stopped ∧ o.st = w ∧ o.tr = []) ∨
      ∃ tr' w2, o.tr = tr' ++ [(w2, Ev.control n)] := by
  cases fuel with
  | zero => simp [realEnsureF] at h
  | succ fuel =>
    cases hs : wRead w n with
    | none =>
      rw [realEnsureF_query_err _ hs fuel] at h
      injection h with h; subst h; simp at hok
    | some e =>
      by_cases hst : e.state = .stopped
      · rw [realEnsureF_already hs hst fuel] at h
        injection h with h; subst h
        exact Or.inl ⟨by simp [wStateOf, hs, hst], rfl, rfl⟩
      · rw [realEnsureF_stop_unfold hs hst fuel] at h
        cases hl : stopDepsGo (fun w' d => (wRead w' d).isSome)
            (fun w' d => realEnsureF fuel w' d .stopped) w (wListDeps w n) with
        | none => rw [hl] at h; simp at h
        | some o1 =>
          rw [hl] at h
          dsimp only at h
          cases hr : o1.res with
          | err e' =>
            rw [hr] at h; dsimp only at h
            injection h with h; subst h; simp at hok
          | ok u =>
            cases u
            rw [hr] at h; dsimp only at h
            cases hw : waitForState (wControlStop o1.st n) n .stopped with
            | ok u =>
              cases u
              rw [hw] at h; dsimp only at h
              injection h with h; subst h
              exact Or.inr ⟨o1.tr, o1.st, rfl⟩
            | err e' =>
              rw [hw] at h; dsimp only at h
              injection h with h; subst h; simp at hok

/-! ## Termination and divergence of the stop recursion -/

theorem stopDepsGo_ne_none {σ : Type} (canOpen : σ → String → Bool)
    (ens : σ → String → Option (GOut σ)) (P : σ → Prop) :
    ∀ (ds : List String) (l : σ),
      P l →
      (∀ l' d, P l' → d ∈ ds → ens l' d ≠ none) →
      (∀ l' d o, P l' → d ∈ ds → ens l' d = some o → P o.st) →
      stopDepsGo canOpen ens l ds ≠ none := by
  intro ds
  induction ds with
  | nil => intro l _ _ _; simp [stopDepsGo]
  | cons d ds ih =>
    intro l hP hne hpres
    simp only [stopDepsGo]
    by_cases hco : canOpen l d
    · rw [if_pos hco]
      cases he : ens l d with
      | none => exact absurd he (hne l d hP (List.mem_cons_self d ds))
      | some o =>
        dsimp only
        cases hro : o.res with
        | err e => simp
        | ok u =>
          cases u
          dsimp only
          cases hl : stopDepsGo canOpen ens o.st ds with
          | none =>
            exfalso
            refine ih o.st (hpres l d o hP (List.mem_cons_self d ds) he) ?_ ?_ hl
            · intro l' d' hP' hd'
              exact hne l' d' hP' (List.mem_cons_of_mem _ hd')
            · intro l' d' o' hP' hd' he'
              exact hpres l' d' o' hP' (List.mem_cons_of_mem _ hd') he'
          | some o2 => simp
    · rw [if_neg hco]
      simp

theorem stopDepsGo_single_none {σ : Type} (canOpen : σ → String → Bool)
    (ens : σ → String → Option (GOut σ)) (l : σ) (d : String)
    (hco : canOpen l d = true) (h : ens l d = none) :
    stopDepsGo canOpen ens l [d] = none := by
  simp [stopDepsGo, hco, h]

/-- Fuel bound for the fake stop recursion under an acyclic dependency
relation, witnessed by a rank function that decreases from every service to
each of its dependents. -/
theorem ensureF_terminates (l0 : Registry) (rank : String → Nat)
    (hrank : ∀ m ∈ listNames l0, ∀ d ∈ listDeps l0 m, rank d < rank m) :
    ∀ fuel n l, shapeEq l0 l → rank n < fuel → ensureF fuel l n .stopped ≠ none := by
  intro fuel
  induction fuel with
  | zero => intro n l _ h; omega
  | succ fuel ih =>
    intro n l hsig hlt
    cases hs : readSvc l n with
    | none => rw [ensureF_query_err _ hs fuel]; simp
    | some s =>
      by_cases hst : s.state = .stopped
      · rw [ensureF_already hs hst fuel]; simp
      · rw [ensureF_stop_unfold hs hst fuel]
        have hmem : n ∈ listNames l0 := by
          apply readSvc_isSome_mem_listNames
          rw [← shapeEq_readSvc_isSome hsig]
          simp [hs]
        have hdeps : listDeps l n = listDeps l0 n := shapeEq_listDeps hsig n
        cases hl : stopDepsGo (fun l' d => (readSvc l' d).isSome)
            (fun l' d => ensureF fuel l' d .stopped) l (listDeps l n) with
        | none =>
          exfalso
          refine stopDepsGo_ne_none _ _ (fun l' => shapeEq l0 l')
            (listDeps l n) l hsig ?_ ?_ hl
          · intro l' d hP hd
            have hdn : rank d < rank n := by
              apply hrank n hmem d
              rw [← hdeps]
              exact hd
            exact ih d l' hP (by omega)
          · intro l' d o hP _ he
            exact shapeEq_trans hP ((ensureF_stop_props fuel l' d o he).1)
        | some o =>
          dsimp only
          cases hro : o.res <;> simp

theorem wRead_mem {w : World} {n : String} {e : OsEntry}
    (h : wRead w n = some e) : (n, e) ∈ w := by
  induction w with
  | nil => simp [wRead] at h
  | cons p rest ih =>
    obtain ⟨k, v⟩ := p
    simp only [wRead] at h
    by_cases hk : k = n
    · subst hk
      rw [if_pos rfl] at h
      injection h with h
      subst h
      exact List.mem_cons_self _ _
    · rw [if_neg hk] at h
      exact List.mem_cons_of_mem _ (ih h)

theorem wRead_isSome_mem_wListNames {w : World} {n : String}
    (h : (wRead w n).isSome) : n ∈ wListNames w := by
  match hs : wRead w n with
  | none => rw [hs] at h; simp at h
  | some e =>
    have := wRead_mem hs
    simp only [wListNames, List.mem_map]
    exact ⟨(n, e), this, rfl⟩

/-- Fuel bound for the real stop recursion under an acyclic dependency
relation. -/
theorem realEnsureF_terminates (w0 : World) (rank : String → Nat)
    (hrank : ∀ m ∈ wListNames w0, ∀ d ∈ wListDeps w0 m, rank d < rank m) :
    ∀ fuel n w, wShapeEq w0 w → rank n < fuel → realEnsureF fuel w n .stopped ≠ none := by
  intro fuel
  induction fuel with
  | zero => intro n w _ h; omega
  | succ fuel ih =>
    intro n w hsig hlt
    cases hs : wRead w n with
    | none => rw [realEnsureF_query_err _ hs fuel]; simp
    | some e =>
      by_cases hst : e.state = .stopped
      · rw [realEnsureF_already hs hst fuel]; simp
      · rw [realEnsureF_stop_unfold hs hst fuel]
        have hmem : n ∈ wListNames w0 := by
          apply wRead_isSome_mem_wListNames
          rw [← wShapeEq_wRead_isSome hsig]
          simp [hs]
        have hdeps : wListDeps w n = wListDeps w0 n := wShapeEq_wListDeps hsig n
        cases hl : stopDepsGo (fun w' d => (wRead w' d).isSome)
            (fun w' d => realEnsureF fuel w' d .stopped) w (wListDeps w n) with
        | none =>
          exfalso
          refine stopDepsGo_ne_none _ _ (fun w' => wShapeEq w0 w')
            (wListDeps w n) w hsig ?_ ?_ hl
          · intro w' d hP hd
            have hdn : rank d < rank n := by
              apply hrank n hmem d
              rw [← hdeps]
              exact hd
            exact ih d w' hP (by omega)
          · intro w' d o hP _ he
            exact wShapeEq_trans hP ((realEnsureF_stop_props fuel w' d o he).1)
        | some o =>
          dsimp only
          cases hro : o.res with
          | err e' => simp
          | ok u =>
            cases u
            dsimp only
            cases hw : waitForState (wControlStop o.st n) n .stopped <;> simp

theorem ensureF_cyc_diverges : ∀ fuel,
    ensureF fuel cycReg "a" .stopped = none ∧ ensureF fuel cycReg "b" .stopped = none := by
  intro fuel
  induction fuel with
  | zero => exact ⟨rfl, rfl⟩
  | succ fuel ih =>
    constructor
    · have hs : readSvc cycReg "a" = some ⟨"a", cfgOf ["b"], .running⟩ := rfl
      rw [ensureF_stop_unfold hs (by decide) fuel]
      have hld : listDeps cycReg "a" = ["b"] := rfl
      rw [hld, stopDepsGo_single_none _ _ cycReg "b" (by decide) ih.2]
    · have hs : readSvc cycReg "b" = some ⟨"b", cfgOf ["a"], .running⟩ := rfl
      rw [ensureF_stop_unfold hs (by decide) fuel]
      have hld : listDeps cycReg "b" = ["a"] := rfl
      rw [hld, stopDepsGo_single_none _ _ cycReg "a" (by decide) ih.1]

theorem realEnsureF_cyc_diverges : ∀ fuel,
    realEnsureF fuel wCyc "a" .stopped = none ∧ realEnsureF fuel wCyc "b" .stopped = none := by
  intro fuel
  induction fuel with
  | zero => exact ⟨rfl, rfl⟩
  | succ fuel ih =>
    constructor
    · have hs : wRead wCyc "a" = some ⟨.running, ["b"], true⟩ := rfl
      rw [realEnsureF_stop_unfold hs (by decide) fuel]
      have hld : wListDeps wCyc "a" = ["b"] := by decide
      rw [hld, stopDepsGo_single_none _ _ wCyc "b" (by decide) ih.2]
    · have hs : wRead wCyc "b" = some ⟨.running, ["a"], true⟩ := rfl
      rw [realEnsureF_stop_unfold hs (by decide) fuel]
      have hld : wListDeps wCyc "b" = ["a"] := by decide
      rw [hld, stopDepsGo_single_none _ _ wCyc "a" (by decide) ih.1]

/-! ## Lemmas on the resize loop -/

theorem enumLoop_retry (oracle : Nat → Nat → EnumOut) (fuel i bufLen bn : Nat)
    (h : oracle i bufLen = .moreData bn) (hgt : bufLen < bn) :
    enumLoop oracle (fuel + 1) i bufLen = enumLoop oracle fuel (i + 1) bn := by
  simp [enumLoop, h, Nat.not_le.2 hgt]

theorem enumLoop_exits (oracle : Nat → Nat → EnumOut) (fuel i bufLen : Nat) (r : ERes Nat)
    (h : enumLoop oracle (fuel + 1) i bufLen = some r) :
    (∃ c, oracle i bufLen = .success c ∧ r = .ok c) ∨
    (∃ e, oracle i bufLen = .failure e ∧
      r = .err ("received unexpected error from enumDependentServicesSyscall: " ++ e)) ∨
    (∃ bn, oracle i bufLen = .moreData bn ∧ bn ≤ bufLen ∧ r = .err moreDataErr) ∨
    (∃ bn, oracle i bufLen = .moreData bn ∧ bufLen < bn ∧
      enumLoop oracle fuel (i + 1) bn = some r) := by
  cases ho : oracle i bufLen with
  | success c =>
    simp only [enumLoop, ho] at h
    injection h with h
    exact Or.inl ⟨c, rfl, h.symm⟩
  | failure e =>
    simp only [enumLoop, ho] at h
    injection h with h
    exact Or.inr (Or.inl ⟨e, rfl, h.symm⟩)
  | moreData bn =>
    simp only [enumLoop, ho] at h
    by_cases hle : bn ≤ bufLen
    · rw [if_pos hle] at h
      injection h with h
      exact Or.inr (Or.inr (Or.inl ⟨bn, rfl, hle, h.symm⟩))
    · rw [if_neg hle] at h
      exact Or.inr (Or.inr (Or.inr ⟨bn, rfl, Nat.not_le.1 hle, h⟩))

theorem enumLoop_unbounded :
    ∀ fuel i bufLen, enumLoop (fun _ len => .moreData (len + 1)) fuel i bufLen = none := by
  intro fuel
  induction fuel with
  | zero => intro i bufLen; rfl
  | succ fuel ih =>
    intro i bufLen
    rw [enumLoop_retry _ fuel i bufLen (bufLen + 1) rfl (Nat.lt_succ_self _)]
    exact ih (i + 1) (bufLen + 1)

/-! ## Membership and multiplicity of the fake dependent scan -/

theorem mem_constMap_filter {deps : List String} {Z k m : String} :
    m ∈ (deps.filter (fun d => d = Z)).map (fun _ => k) ↔ (Z ∈ deps ∧ m = k) := by
  simp only [List.mem_map, List.mem_filter]
  constructor
  · rintro ⟨a, ⟨ha, haz⟩, hk⟩
    have haz' : a = Z := by simpa using haz
    subst haz'
    exact ⟨ha, hk.symm⟩
  · rintro ⟨hz, rfl⟩
    exact ⟨Z, ⟨hz, by simp⟩, rfl⟩

theorem listDeps_mem (l : Registry) (Z m : String) :
    m ∈ listDeps l Z ↔ m ≠ Z ∧ ∃ s, (m, s) ∈ l ∧ Z ∈ s.config.dependencies := by
  induction l with
  | nil => simp [listDeps]
  | cons p rest ih =>
    obtain ⟨k, s⟩ := p
    simp only [listDeps]
    by_cases hk : k = Z
    · rw [if_pos hk]
      subst hk
      rw [ih]
      constructor
      · rintro ⟨hmz, s', hmem, hz⟩
        exact ⟨hmz, s', List.mem_cons_of_mem _ hmem, hz⟩
      · rintro ⟨hmz, s', hmem, hz⟩
        rcases List.mem_cons.1 hmem with heq | hmem'
        · exfalso
          have : m = k := congrArg Prod.fst heq
          exact hmz this
        · exact ⟨hmz, s', hmem', hz⟩
    · rw [if_neg hk]
      rw [List.mem_append, mem_constMap_filter, ih]
      constructor
      · rintro (⟨hz, rfl⟩ | ⟨hmz, s', hmem, hz⟩)
        · exact ⟨hk, s, List.mem_cons_self _ _, hz⟩
        · exact ⟨hmz, s', List.mem_cons_of_mem _ hmem, hz⟩
      · rintro ⟨hmz, s', hmem, hz⟩
        rcases List.mem_cons.1 hmem with heq | hmem'
        · left
          have hm : m = k := congrArg Prod.fst heq
          have hs : s' = s := congrArg Prod.snd heq
          subst hs
          exact ⟨hz, hm⟩
        · exact Or.inr ⟨hmz, s', hmem', hz⟩

theorem mem_listDeps_mem_listNames {l : Registry} {Z x : String}
    (h : x ∈ listDeps l Z) : x ∈ listNames l := by
  rw [listDeps_mem] at h
  obtain ⟨_, s, hm, _⟩ := h
  simp only [listNames, List.mem_map]
  exact ⟨(x, s), hm, rfl⟩

theorem count_constMap (xs : List String) (k m : String) :
    ((xs.map (fun _ => k)).count m) = if m = k then xs.length else 0 := by
  induction xs with
  | nil => simp
  | cons x rest ih =>
    simp only [List.map_cons, List.count_cons, ih]
    by_cases h : m = k
    · simp [h]
    · have : ¬ (k == m) = true := by
        simp only [beq_iff_eq]
        intro hh
        exact h hh.symm
      simp [h, this]

theorem length_filter_eq_count (deps : List String) (Z : String) :
    (deps.filter (fun d => d = Z)).length = deps.count Z := by
  induction deps with
  | nil => rfl
  | cons d rest ih =>
    by_cases h : d = Z
    · subst h
      simp [List.count_cons, ih]
    · have hb : ¬ (d == Z) = true := by simpa using h
      simp [List.filter_cons, h, List.count_cons, hb, ih]

theorem listDeps_count (l : Registry) (Z m : String) (s : FakeService)
    (hnd : (listNames l).Nodup) (hmem : (m, s) ∈ l) (hmz : m ≠ Z) :
    (listDeps l Z).count m = s.config.dependencies.count Z := by
  induction l with
  | nil => simp at hmem
  | cons p rest ih =>
    obtain ⟨k, v⟩ := p
    simp only [listNames, List.map_cons, List.nodup_cons] at hnd
    obtain ⟨hknot, hndrest⟩ := hnd
    rcases List.mem_cons.1 hmem with heq | hmem'
    · have hm : m = k := congrArg Prod.fst heq
      have hv : v = s := (congrArg Prod.snd heq).symm
      subst hv
      subst hm
      simp only [listDeps]
      rw [if_neg hmz]
      rw [List.count_append, count_constMap, if_pos rfl, length_filter_eq_count]
      have hnotin : m ∉ listDeps rest Z := by
        intro hin
        exact hknot (mem_listDeps_mem_listNames hin)
      rw [List.count_eq_zero.2 hnotin]
      simp
    · have hmk : m ≠ k := by
        intro hh
        subst hh
        apply hknot
        simp only [listNames, List.mem_map]
        exact ⟨(m, s), hmem', rfl⟩
      simp only [listDeps]
      by_cases hkz : k = Z
      · rw [if_pos hkz]
        exact ih hndrest hmem'
      · rw [if_neg hkz]
        rw [List.count_append, count_constMap, if_neg hmk, Nat.zero_add]
        exact ih hndrest hmem'

theorem listDeps_not_self (l : Registry) (n : String) : n ∉ listDeps l n := by
  rw [listDeps_mem]
  rintro ⟨hne, _⟩
  exact hne rfl

/-! ## Registry write and removal -/

theorem readSvc_writeSvc (l : Registry) (n : String) (s : FakeService) (m : String) :
    readSvc (writeSvc l n s) m = if m = n then some s else readSvc l m := by
  induction l with
  | nil =>
    by_cases h : m = n
    · subst h; simp [writeSvc, readSvc]
    · have : ¬ n = m := fun hh => h hh.symm
      simp [writeSvc, readSvc, h, this]
  | cons p rest ih =>
    obtain ⟨k, v⟩ := p
    simp only [writeSvc]
    by_cases hk : k = n
    · rw [if_pos hk]
      subst hk
      by_cases hm : m = k
      · subst hm
        simp [readSvc]
      · have : ¬ k = m := fun hh => hm hh.symm
        simp [readSvc, this, hm]
    · rw [if_neg hk]
      by_cases hkm : k = m
      · subst hkm
        have : ¬ k = n := hk
        simp [readSvc, this]
      · simp [readSvc, hkm, ih]

theorem readSvc_removeKey_self (l : Registry) (n : String) :
    readSvc (removeKey l n) n = none := by
  induction l with
  | nil => rfl
  | cons p rest ih =>
    obtain ⟨k, v⟩ := p
    by_cases hk : k = n
    · simp [removeKey, hk, ih]
    · simp [removeKey, hk, readSvc, ih]

theorem removeSvc_of_present {l : Registry} {n : String} {s : FakeService}
    (h : readSvc l n = some s) :
    removeSvc l n = .ok (removeKey l n) := by
  simp [removeSvc, h]

/-! ## Timeout behavior of the real engine -/

theorem wStateOf_wStart_unresponsive {w : World} {n : String} {e : OsEntry}
    (hs : wRead w n = some e) (hresp : e.responsive = false) :
    wStateOf (wStart w n) n = some .startPending := by
  unfold wStart
  rw [hs]
  dsimp only
  rw [hresp]
  simp only [Bool.false_eq_true, if_false]
  rw [wStateOf_wSetState, if_pos rfl]
  simp [wStateOf, hs]

theorem wStateOf_wControlStop_unresponsive {w : World} {n : String} {e : OsEntry}
    (hs : wRead w n = some e) (hresp : e.responsive = false) :
    wStateOf (wControlStop w n) n = some .stopPending := by
  unfold wControlStop
  rw [hs]
  dsimp only
  rw [hresp]
  simp only [Bool.false_eq_true, if_false]
  rw [wStateOf_wSetState, if_pos rfl]
  simp [wStateOf, hs]

theorem realEnsureF_running_timeout {w : World} {n : String} {e : OsEntry}
    (hs : wRead w n = some e) (hst : e.state ≠ .running)
    (hresp : e.responsive = false) (fuel : Nat) :
    realEnsureF (fuel + 1) w n .running =
      some ⟨wStart w n, [(w, .start n)], .err "timed out waiting for service state"⟩ := by
  rw [realEnsureF_start_unfold hs hst fuel]
  have hw : waitForState (wStart w n) n .running =
      .err "timed out waiting for service state" := by
    unfold waitForState
    rw [wStateOf_wStart_unresponsive hs hresp]
    rfl
  rw [hw]

theorem realEnsureF_stop_timeout {w : World} {n : String} {e : OsEntry}
    (hs : wRead w n = some e) (hst : e.state ≠ .stopped)
    (hresp : e.responsive = false) (hdeps : wListDeps w n = []) (fuel : Nat) :
    realEnsureF (fuel + 1) w n .stopped =
      some ⟨wControlStop w n, [(w, .control n)], .err "timed out waiting for service state"⟩ := by
  rw [realEnsureF_stop_unfold hs hst fuel, hdeps]
  have hw : waitForState (wControlStop w n) n .stopped =
      .err "timed out waiting for service state" := by
    unfold waitForState
    rw [wStateOf_wControlStop_unresponsive hs hresp]
    rfl
  simp only [stopDepsGo]
  rw [hw]
  rfl

/-! ## Claim C1 -/

/-- C1 counterexample: on `c1Reg`, `d2` transitively declares `s` (via
`d1`), `s` is running, and `EnsureServiceState(s, stopped)` succeeds with
the stop control on `s` as its only issued action, leaving `d2` running —
`d2` is never driven to stopped by any recursive call. -/
theorem claim1_counterexample :
    readSvc c1Reg "d1" = some ⟨"d1", cfgOf ["s"], .stopped⟩ ∧
    readSvc c1Reg "d2" = some ⟨"d2", cfgOf ["d1"], .running⟩ ∧
    "s" ∈ (cfgOf ["s"]).dependencies ∧
    "d1" ∈ (cfgOf ["d1"]).dependencies ∧
    stateOf c1Reg "s" = some .running ∧
    ensureF 5 c1Reg "s" .stopped = some ⟨c1RegAfter, [(c1Reg, .control "s")], .ok ()⟩ ∧
    stateOf c1RegAfter "d2" = some .running := by
  decide

/-- C1 (amended): in both the test double and the real manager, every stop
control issued during `EnsureServiceState(s, stopped)` — on `s` or on any
recursively visited dependent — happens only when every direct dependent of
the controlled service is already stopped in the registry at that moment;
and when the call succeeds on a not-already-stopped `s`, its stop control
on `s` is the last issued action, with all of `s`'s direct dependents
stopped at that point.  Transitive dependents reachable only through an
already-stopped dependent are not visited. -/
theorem claim1_stop_ordering :
    (∀ fuel l s o, ensureF fuel l s .stopped = some o →
      (∀ li ev, (li, ev) ∈ o.tr →
        ∃ m, ev = Ev.control m ∧ ∀ d ∈ listDeps li m, stateOf li d = some .stopped) ∧
      (o.res = .ok () → stateOf l s ≠ some .stopped →
        ∃ tr' l2, o.tr = tr' ++ [(l2, Ev.control s)] ∧
          ∀ d ∈ listDeps l2 s, stateOf l2 d = some .stopped)) ∧
    (∀ fuel w s o, realEnsureF fuel w s .stopped = some o →
      (∀ li ev, (li, ev) ∈ o.tr →
        ∃ m, ev = Ev.control m ∧ ∀ d ∈ wListDeps li m, wStateOf li d = some .stopped) ∧
      (o.res = .ok () → wStateOf w s ≠ some .stopped →
        ∃ tr' w2, o.tr = tr' ++ [(w2, Ev.control s)] ∧
          ∀ d ∈ wListDeps w2 s, wStateOf w2 d = some .stopped)) := by
  constructor
  · intro fuel l s o h
    obtain ⟨p1, p2, p3, p4, p5⟩ := ensureF_stop_props fuel l s o h
    constructor
    · intro li ev hmem
      obtain ⟨⟨m, hm⟩, _⟩ := p4 li ev hmem
      subst hm
      exact ⟨m, rfl, fun d hd => p5 li m hmem d hd⟩
    · intro hok hne
      rcases ensureF_stop_last h hok with ⟨hstop, _, _⟩ | ⟨tr', l2, htr⟩
      · exact absurd hstop hne
      · refine ⟨tr', l2, htr, ?_⟩
        intro d hd
        have hmem : (l2, Ev.control s) ∈ o.tr := by
          rw [htr]
          exact List.mem_append.2 (Or.inr (List.mem_singleton.2 rfl))
        exact p5 l2 s hmem d hd
  · intro fuel w s o h
    obtain ⟨p1, p2, p3, p4, p5⟩ := realEnsureF_stop_props fuel w s o h
    constructor
    · intro li ev hmem
      obtain ⟨⟨m, hm⟩, _⟩ := p4 li ev hmem
      subst hm
      exact ⟨m, rfl, fun d hd => p5 li m hmem d hd⟩
    · intro hok hne
      rcases realEnsureF_stop_last h hok with ⟨hstop, _, _⟩ | ⟨tr', w2, htr⟩
      · exact absurd hstop hne
      · refine ⟨tr', w2, htr, ?_⟩
        intro d hd
        have hmem : (w2, Ev.control s) ∈ o.tr := by
          rw [htr]
          exact List.mem_append.2 (Or.inr (List.mem_singleton.2 rfl))
        exact p5 w2 s hmem d hd

/-- C1 witness: the ordering theorem applied to the all-running three-link
chain — the successful stop of `C` ends with the stop control on `C`, with
`C`'s direct dependents stopped at that moment. -/
theorem claim1_witness :
    ∃ tr' l2, chainOut.tr = tr' ++ [(l2, Ev.control "C")] ∧
      ∀ d ∈ listDeps l2 "C", stateOf l2 d = some .stopped :=
  (claim1_stop_ordering.1 4 regChain "C" chainOut (by decide)).2 (by decide) (by decide)

/-! ## Claim C2 -/

/-- C2: in both variants a successful `EnsureServiceState` returns only
with the service's queried state equal to the target; and in the real
variant, when the OS never performs the transition, the call returns a
transition-timeout error in bounded time (for a start request, and for a
stop request once its dependents are handled).  The test double's modelled
transitions are synchronous, so its state can never fail to transition. -/
theorem claim2_wait_for_target :
    (∀ fuel l n t o, ensureF fuel l n t = some o → o.res = .ok () →
      stateOf o.st n = some t) ∧
    (∀ fuel w n t o, realEnsureF fuel w n t = some o → o.res = .ok () →
      wStateOf o.st n = some t) ∧
    (∀ fuel w n e, wRead w n = some e → e.state ≠ .running → e.responsive = false →
      realEnsureF (fuel + 1) w n .running =
        some ⟨wStart w n, [(w, .start n)], .err "timed out waiting for service state"⟩) ∧
    (∀ fuel w n e, wRead w n = some e → e.state ≠ .stopped → e.responsive = false →
      wListDeps w n = [] →
      realEnsureF (fuel + 1) w n .stopped =
        some ⟨wControlStop w n, [(w, .control n)],
          .err "timed out waiting for service state"⟩) := by
  refine ⟨?_, ?_, ?_, ?_⟩
  · intro fuel l n t o h hok
    exact ensureF_ok_state h hok
  · intro fuel w n t o h hok
    exact realEnsureF_ok_state h hok
  · intro fuel w n e hs hst hresp
    exact realEnsureF_running_timeout hs hst hresp fuel
  · intro fuel w n e hs hst hresp hdeps
    exact realEnsureF_stop_timeout hs hst hresp hdeps fuel

/-- C2 witness: stopping the unresponsive running service `u` returns the
transition-timeout error. -/
theorem claim2_witness :
    realEnsureF 1 wTimeout "u" .stopped =
      some ⟨wControlStop wTimeout "u", [(wTimeout, .control "u")],
        .err "timed out waiting for service state"⟩ :=
  claim2_wait_for_target.2.2.2 0 wTimeout "u" ⟨.running, [], false⟩
    (by decide) (by decide) (by decide) (by decide)

/-! ## Claim C3 -/

/-- C3: in both variants, a target already reported by `Query` makes
`EnsureServiceState` an immediate success issuing no action; consequently,
after a successful call with target in `running`/`stopped`, a second call
with no external change is a no-op success. -/
theorem claim3_idempotent :
    (∀ fuel l n t s, readSvc l n = some s → s.state = t →
      ensureF (fuel + 1) l n t = some ⟨l, [], .ok ()⟩) ∧
    (∀ fuel fuel2 l n t o, (t = .running ∨ t = .stopped) →
      ensureF fuel l n t = some o → o.res = .ok () →
      ensureF (fuel2 + 1) o.st n t = some ⟨o.st, [], .ok ()⟩) ∧
    (∀ fuel w n t e, wRead w n = some e → e.state = t →
      realEnsureF (fuel + 1) w n t = some ⟨w, [], .ok ()⟩) ∧
    (∀ fuel fuel2 w n t o, (t = .running ∨ t = .stopped) →
      realEnsureF fuel w n t = some o → o.res = .ok () →
      realEnsureF (fuel2 + 1) o.st n t = some ⟨o.st, [], .ok ()⟩) := by
  refine ⟨?_, ?_, ?_, ?_⟩
  · intro fuel l n t s hs hst
    exact ensureF_already hs hst fuel
  · intro fuel fuel2 l n t o _ h hok
    have hst := ensureF_ok_state h hok
    cases hr : readSvc o.st n with
    | none =>
      simp only [stateOf, hr, Option.map_none'] at hst
      exact Option.noConfusion hst
    | some s' =>
      have hs' : s'.state = t := by
        simp only [stateOf, hr, Option.map_some'] at hst
        injection hst
      exact ensureF_already hr hs' fuel2
  · intro fuel w n t e hs hst
    exact realEnsureF_already hs hst fuel
  · intro fuel fuel2 w n t o _ h hok
    have hst := realEnsureF_ok_state h hok
    cases hr : wRead o.st n with
    | none =>
      simp only [wStateOf, hr, Option.map_none'] at hst
      exact Option.noConfusion hst
    | some e' =>
      have he' : e'.state = t := by
        simp only [wStateOf, hr, Option.map_some'] at hst
        injection hst
      exact realEnsureF_already hr he' fuel2

/-- C3 witness: after a first successful stop of the running service `x`,
the second stop call is a no-op success on the unchanged registry. -/
theorem claim3_witness :
    ensureF 1 [("x", ⟨"x", cfgOf [], SState.stopped⟩)] "x" .stopped =
      some ⟨[("x", ⟨"x", cfgOf [], SState.stopped⟩)], [], .ok ()⟩ :=
  claim3_idempotent.2.1 1 0 [("x", ⟨"x", cfgOf [], SState.running⟩)] "x" .stopped
    ⟨[("x", ⟨"x", cfgOf [], SState.stopped⟩)],
      [([("x", ⟨"x", cfgOf [], SState.running⟩)], .control "x")], .ok ()⟩
    (Or.inr rfl) (by decide) (by decide)

/-! ## Claim C4 -/

/-- C4 counterexample: for the unsupported target `paused`, a service whose
current state is already `paused` makes `EnsureServiceState` return success
(the idempotence check precedes the unsupported-state check), not an
error — in both variants. -/
theorem claim4_counterexample :
    stateOf pausedReg "p" = some .paused ∧
    (SState.paused ≠ SState.running ∧ SState.paused ≠ SState.stopped) ∧
    ensureF 1 pausedReg "p" .paused = some ⟨pausedReg, [], .ok ()⟩ ∧
    realEnsureF 1 wPausedReg "p" .paused = some ⟨wPausedReg, [], .ok ()⟩ := by
  decide

/-- C4 (amended): for a target outside `running`/`stopped`, both variants
return the immediate unexpected-state error whenever the current state
differs from the target; when `Query` already reports the target, the call
instead returns success as an idempotent no-op. -/
theorem claim4_bad_target :
    (∀ fuel l n s t, readSvc l n = some s → t ≠ .running → t ≠ .stopped →
      (s.state ≠ t →
        ensureF (fuel + 1) l n t = some ⟨l, [], .err "unexpected state request"⟩) ∧
      (s.state = t → ensureF (fuel + 1) l n t = some ⟨l, [], .ok ()⟩)) ∧
    (∀ fuel w n e t, wRead w n = some e → t ≠ .running → t ≠ .stopped →
      (e.state ≠ t →
        realEnsureF (fuel + 1) w n t = some ⟨w, [], .err "unexpected state request"⟩) ∧
      (e.state = t → realEnsureF (fuel + 1) w n t = some ⟨w, [], .ok ()⟩)) := by
  constructor
  · intro fuel l n s t hs ht1 ht2
    exact ⟨fun hst => ensureF_bad_target hs hst ht1 ht2 fuel,
           fun hst => ensureF_already hs hst fuel⟩
  · intro fuel w n e t hs ht1 ht2
    exact ⟨fun hst => realEnsureF_bad_target hs hst ht1 ht2 fuel,
           fun hst => realEnsureF_already hs hst fuel⟩

/-- C4 witness: requesting `pausePending` on the paused service `p` is an
immediate unexpected-state error. -/
theorem claim4_witness :
    ensureF 1 pausedReg "p" .pausePending =
      some ⟨pausedReg, [], .err "unexpected state request"⟩ :=
  (claim4_bad_target.1 0 pausedReg "p" ⟨"p", cfgOf [], .paused⟩ .pausePending
    (by decide) (by decide) (by decide)).1 (by decide)

/-! ## Claim C5 -/

/-- C5 counterexample: the scan returns a name once per occurrence of the
target in its dependency list (`X` twice when `X` declares `Z` twice), and
skips the service itself even when its own list contains its name — so the
result is not always exactly the set of declaring services with each name
once. -/
theorem claim5_counterexample :
    listDependentServices dupReg "Z" = .ok ["X", "X"] ∧
    (["X", "X"].count "X") = 2 ∧
    readSvc selfZReg "Z" = some ⟨"Z", cfgOf ["Z"], .running⟩ ∧
    "Z" ∈ (cfgOf ["Z"]).dependencies ∧
    listDependentServices selfZReg "Z" = .ok [] := by
  decide

/-- C5 (amended): the fake dependent enumeration never fails, and its
result contains exactly the names of the *other* services whose declared
dependency list contains the target, one occurrence per occurrence of the
target in that list; under the registry invariant (unique names), a
declaring service `m` appears as many times as `Z` appears in `m`'s list —
so when every declaring list mentions `Z` at most once the result is
exactly the set of declaring names, and an empty result is a valid
non-error outcome. -/
theorem claim5_dependents :
    (∀ l Z, listDependentServices l Z = .ok (listDeps l Z)) ∧
    (∀ l Z m, m ∈ listDeps l Z ↔ m ≠ Z ∧ ∃ s, (m, s) ∈ l ∧ Z ∈ s.config.dependencies) ∧
    (∀ l Z m s, (listNames l).Nodup → (m, s) ∈ l → m ≠ Z →
      (listDeps l Z).count m = s.config.dependencies.count Z) :=
  ⟨listDependentServices_eq_ok, listDeps_mem,
   fun l Z m s h1 h2 h3 => listDeps_count l Z m s h1 h2 h3⟩

/-- C5 witness: in the X/Y/W/Z registry, `X` occurs in the dependent list
of `Z` exactly as often as `Z` occurs in `X`'s declarations (once). -/
theorem claim5_witness :
    (listDeps xyzReg "Z").count "X" =
      (FakeService.mk "X" (cfgOf ["Z"]) .running).config.dependencies.count "Z" :=
  claim5_dependents.2.2 xyzReg "Z" "X" ⟨"X", cfgOf ["Z"], .running⟩
    (by decide) (by decide) (by decide)

/-! ## Claim C6 -/

theorem wRead_wRemoveKey_self (w : World) (n : String) :
    wRead (wRemoveKey w n) n = none := by
  induction w with
  | nil => rfl
  | cons p rest ih =>
    obtain ⟨k, v⟩ := p
    by_cases hk : k = n
    · simp [wRemoveKey, hk, ih]
    · simp [wRemoveKey, hk, wRead, ih]

/-- C6: in both variants, deleting an absent service is a success (and
leaves everything untouched, so consecutive deletes of an absent name all
succeed); when the service is present, a failing ensure-stopped call makes
the delete fail without ever issuing the delete action and with the
service still present, while a successful ensure-stopped call leaves the
service stopped at the moment the delete action is issued, after which the
service is gone. -/
theorem claim6_delete :
    (∀ fuel l n, readSvc l n = none → fakeDeleteService fuel l n = some ⟨l, [], .ok ()⟩) ∧
    (∀ fuel l n s o, readSvc l n = some s → ensureF fuel l n .stopped = some o →
      (∀ e, o.res = .err e →
        fakeDeleteService fuel l n =
          some ⟨o.st, o.tr, .err ("failed to stop service " ++ n ++ ": " ++ e)⟩ ∧
        (readSvc o.st n).isSome = true ∧
        ∀ li m, (li, Ev.delete m) ∉ o.tr) ∧
      (o.res = .ok () →
        fakeDeleteService fuel l n =
          some ⟨removeKey o.st n, o.tr ++ [(o.st, .delete n)], .ok ()⟩ ∧
        stateOf o.st n = some .stopped ∧
        readSvc (removeKey o.st n) n = none)) ∧
    (∀ fuel w n, wRead w n = none → realDeleteService fuel w n = some ⟨w, [], .ok ()⟩) ∧
    (∀ fuel w n e o, wRead w n = some e → realEnsureF fuel w n .stopped = some o →
      (∀ e2, o.res = .err e2 →
        realDeleteService fuel w n =
          some ⟨o.st, o.tr, .err ("failed to stop service " ++ n ++ ": " ++ e2)⟩ ∧
        (wRead o.st n).isSome = true ∧
        ∀ li m, (li, Ev.delete m) ∉ o.tr) ∧
      (o.res = .ok () →
        realDeleteService fuel w n =
          some ⟨wRemoveKey o.st n, o.tr ++ [(o.st, .delete n)], .ok ()⟩ ∧
        wStateOf o.st n = some .stopped ∧
        wRead (wRemoveKey o.st n) n = none)) := by
  refine ⟨?_, ?_, ?_, ?_⟩
  · intro fuel l n h
    simp [fakeDeleteService, h]
  · intro fuel l n s o hs he
    obtain ⟨p1, p2, p3, p4, p5⟩ := ensureF_stop_props fuel l n o he
    have hpres : (readSvc o.st n).isSome = true := by
      rw [shapeEq_readSvc_isSome p1]
      simp [hs]
    constructor
    · intro e hr
      refine ⟨?_, hpres, ?_⟩
      · unfold fakeDeleteService
        rw [hs]
        dsimp only
        rw [he]
        dsimp only
        rw [hr]
      · intro li m hmem
        obtain ⟨⟨m', hm'⟩, _⟩ := p4 li (Ev.delete m) hmem
        exact Ev.noConfusion hm'
    · intro hr
      obtain ⟨s', hs'⟩ : ∃ s', readSvc o.st n = some s' := by
        cases hrr : readSvc o.st n with
        | none => rw [hrr] at hpres; simp at hpres
        | some s' => exact ⟨s', rfl⟩
      refine ⟨?_, p3 hr, readSvc_removeKey_self o.st n⟩
      unfold fakeDeleteService
      rw [hs]
      dsimp only
      rw [he]
      dsimp only
      rw [hr]
      dsimp only
      rw [removeSvc_of_present hs']
  · intro fuel w n h
    simp [realDeleteService, h]
  · intro fuel w n e o hs he
    obtain ⟨p1, p2, p3, p4, p5⟩ := realEnsureF_stop_props fuel w n o he
    have hpres : (wRead o.st n).isSome = true := by
      rw [wShapeEq_wRead_isSome p1]
      simp [hs]
    constructor
    · intro e2 hr
      refine ⟨?_, hpres, ?_⟩
      · unfold realDeleteService
        rw [hs]
        dsimp only
        rw [he]
        dsimp only
        rw [hr]
      · intro li m hmem
        obtain ⟨⟨m', hm'⟩, _⟩ := p4 li (Ev.delete m) hmem
        exact Ev.noConfusion hm'
    · intro hr
      refine ⟨?_, p3 hr, wRead_wRemoveKey_self o.st n⟩
      unfold realDeleteService
      rw [hs]
      dsimp only
      rw [he]
      dsimp only
      rw [hr]

/-- C6 witness: deleting the present running service `x` stops it first and
then issues the delete, removing it. -/
theorem claim6_witness :
    (fakeDeleteService 1 regX "x" =
      some ⟨removeKey regXStopped "x",
        [(regX, .control "x")] ++ [(regXStopped, .delete "x")], .ok ()⟩) ∧
    stateOf regXStopped "x" = some .stopped ∧
    readSvc (removeKey regXStopped "x") "x" = none :=
  (claim6_delete.2.1 1 regX "x" ⟨"x", cfgOf [], .running⟩ delOut
    (by decide) (by decide)).2 (by decide)

/-! ## Claim C7 -/

/-- C7: creating a service whose name is taken fails with the
already-exists error (the embedding is pure, so the registry — and with it
the existing service's configuration and state — is untouched by the failed
call); creating a fresh name succeeds with initial state `stopped`,
registers the service under its name, and changes no other entry. -/
theorem claim7_create :
    (∀ l n p c a s0, readSvc l n = some s0 →
      fakeCreateService l n p c a = .err "service already exists") ∧
    (∀ l n p c a, readSvc l n = none →
      fakeCreateService l n p c a =
        .ok (⟨n, { c with binaryPathName := p }, .stopped⟩,
          writeSvc l n ⟨n, { c with binaryPathName := p }, .stopped⟩) ∧
      readSvc (writeSvc l n ⟨n, { c with binaryPathName := p }, .stopped⟩) n =
        some ⟨n, { c with binaryPathName := p }, .stopped⟩ ∧
      (∀ m, m ≠ n →
        readSvc (writeSvc l n ⟨n, { c with binaryPathName := p }, .stopped⟩) m =
          readSvc l m)) := by
  constructor
  · intro l n p c a s0 h
    simp [fakeCreateService, h]
  · intro l n p c a h
    refine ⟨?_, ?_, ?_⟩
    · simp [fakeCreateService, h]
    · rw [readSvc_writeSvc, if_pos rfl]
    · intro m hm
      rw [readSvc_writeSvc, if_neg hm]

/-- C7 witness: a second `CreateService` with an already-taken name fails
with the already-exists error. -/
theorem claim7_witness :
    fakeCreateService [("svc", ⟨"svc", ⟨"/bin/x", ["d"]⟩, .stopped⟩)] "svc" "/bin/x"
      (cfgOf ["d"]) ["arg"] = .err "service already exists" :=
  claim7_create.1 [("svc", ⟨"svc", ⟨"/bin/x", ["d"]⟩, .stopped⟩)] "svc" "/bin/x"
    (cfgOf ["d"]) ["arg"] ⟨"svc", ⟨"/bin/x", ["d"]⟩, .stopped⟩ (by decide)

/-! ## Claim C8 -/

/-- C8 counterexample: a buffer-too-small report whose required size does
not exceed the current buffer size makes the loop exit immediately with the
buffer-too-small error itself — an exit that is neither a syscall success
nor an error other than buffer-too-small, and with no retry. -/
theorem claim8_counterexample :
    badOracle 0 0 = .moreData 0 ∧
    enumLoop badOracle 1 0 0 = some (.err moreDataErr) := by
  decide

/-- C8 (amended): when a buffer-too-small report strictly exceeds the
current buffer size, the loop retries with a buffer of exactly the reported
size; the loop exits only on syscall success, on an error other than
buffer-too-small, or on a buffer-too-small report not exceeding the current
buffer size; and with an oracle whose required size keeps growing, the loop
runs out of any amount of fuel — the number of attempts is unbounded. -/
theorem claim8_resize_loop :
    (∀ oracle fuel i bufLen bn, oracle i bufLen = EnumOut.moreData bn → bufLen < bn →
      enumLoop oracle (fuel + 1) i bufLen = enumLoop oracle fuel (i + 1) bn) ∧
    (∀ oracle fuel i bufLen r, enumLoop oracle (fuel + 1) i bufLen = some r →
      (∃ c, oracle i bufLen = .success c ∧ r = .ok c) ∨
      (∃ e, oracle i bufLen = .failure e ∧
        r = .err ("received unexpected error from enumDependentServicesSyscall: " ++ e)) ∨
      (∃ bn, oracle i bufLen = .moreData bn ∧ bn ≤ bufLen ∧ r = .err moreDataErr) ∨
      (∃ bn, oracle i bufLen = .moreData bn ∧ bufLen < bn ∧
        enumLoop oracle fuel (i + 1) bn = some r)) ∧
    (∀ fuel i bufLen, enumLoop (fun _ len => .moreData (len + 1)) fuel i bufLen = none) :=
  ⟨fun oracle fuel i bufLen bn h hgt => enumLoop_retry oracle fuel i bufLen bn h hgt,
   fun oracle fuel i bufLen r h => enumLoop_exits oracle fuel i bufLen r h,
   enumLoop_unbounded⟩

/-- C8 witness: after the first buffer-too-small report of 8 bytes, the
loop retries with a buffer of exactly 8 bytes. -/
theorem claim8_witness :
    enumLoop growOracle 2 0 0 = enumLoop growOracle 1 1 8 :=
  claim8_resize_loop.1 growOracle 1 0 0 8 (by decide) (by decide)

/-! ## Claim C9 -/

/-- C9: neither variant checks for cycles.  Under an acyclic declared
dependency relation — witnessed by a rank function decreasing from every
service to its dependents — the recursion terminates (enough fuel makes the
embedding return a result), while on the two-service cycle of running
services the recursion consumes any amount of fuel without returning. -/
theorem claim9_no_cycle_check :
    (∀ (l : Registry) (rank : String → Nat) (n : String),
      (∀ m ∈ listNames l, ∀ d ∈ listDeps l m, rank d < rank m) →
      ensureF (rank n + 1) l n .stopped ≠ none) ∧
    (∀ (w : World) (rank : String → Nat) (n : String),
      (∀ m ∈ wListNames w, ∀ d ∈ wListDeps w m, rank d < rank m) →
      realEnsureF (rank n + 1) w n .stopped ≠ none) ∧
    (stateOf cycReg "a" = some .running ∧ stateOf cycReg "b" = some .running ∧
      listDeps cycReg "a" = ["b"] ∧ listDeps cycReg "b" = ["a"] ∧
      ∀ fuel, ensureF fuel cycReg "a" .stopped = none) ∧
    (wStateOf wCyc "a" = some .running ∧ wStateOf wCyc "b" = some .running ∧
      wListDeps wCyc "a" = ["b"] ∧ wListDeps wCyc "b" = ["a"] ∧
      ∀ fuel, realEnsureF fuel wCyc "a" .stopped = none) := by
  refine ⟨?_, ?_, ⟨by decide, by decide, by decide, by decide, ?_⟩,
    ⟨by decide, by decide, by decide, by decide, ?_⟩⟩
  · intro l rank n hr
    exact ensureF_terminates l rank hr (rank n + 1) n l (shapeEq_refl l) (Nat.lt_succ_self _)
  · intro w rank n hr
    exact realEnsureF_terminates w rank hr (rank n + 1) n w (wShapeEq_refl w) (Nat.lt_succ_self _)
  · exact fun fuel => (ensureF_cyc_diverges fuel).1
  · exact fun fuel => (realEnsureF_cyc_diverges fuel).1

/-- C9 witness: the acyclic three-link chain admits a rank function, so the
stop recursion on `C` returns within rank-bounded fuel. -/
theorem claim9_witness : ensureF (chainRank "C" + 1) regChain "C" .stopped ≠ none :=
  claim9_no_cycle_check.1 regChain chainRank "C" (by decide)

/-! ## Claim C10 -/

/-- C10: the fake dependent scan never reports a service as its own
dependent, even when its own declaration list contains its name; hence a
direct self-dependency does not make `EnsureServiceState(n, stopped)`
recurse on `n` — it completes with minimal fuel, issuing only the stop
control on `n`. -/
theorem claim10_self_excluded :
    (∀ l n, n ∉ listDeps l n) ∧
    readSvc selfDepReg "a" = some ⟨"a", cfgOf ["a"], .running⟩ ∧
    "a" ∈ (cfgOf ["a"]).dependencies ∧
    listDeps selfDepReg "a" = [] ∧
    ensureF 1 selfDepReg "a" .stopped =
      some ⟨[("a", ⟨"a", cfgOf ["a"], .stopped⟩)], [(selfDepReg, .control "a")], .ok ()⟩ :=
  ⟨listDeps_not_self, by decide, by decide, by decide, by decide⟩

end WMCO

